import Mathlib

/-!
Shallow embedding of the lost-and-found matching core (app/nlp.py and
app/matching.py, plus the duplicate-detection scan of app/main.py) and
proofs about it.  Python strings become Lean String, Python lists become
List, Python sets become Finset, floats become exact rationals, and a
Python exception becomes the error branch of Except.
-/

set_option maxRecDepth 8000

deriving instance DecidableEq for Except

/-- Stopword set of app/nlp.py (STOPWORDS). -/
def STOPWORDS : List String :=
  ["a", "an", "the", "and", "or", "but", "with", "without", "near", "at", "in", "on", "to", "from",
   "of", "for", "my", "our", "your", "is", "was", "were", "it", "this", "that", "i", "we", "they",
   "yesterday", "today", "tomorrow", "evening", "morning", "night",
   "lost", "found", "missing", "pickup", "pick", "picked", "drop", "dropped"]

/-- Brand vocabulary of app/nlp.py (COMMON_BRANDS). -/
def COMMON_BRANDS : List String :=
  ["apple", "iphone", "ipad",
   "samsung", "xiaomi", "redmi", "poco", "oneplus", "oppo", "vivo", "huawei",
   "google", "pixel", "nokia", "realme", "motorola", "infinix", "tecno", "itel",
   "dell", "hp", "lenovo", "asus", "acer", "msi", "macbook", "microsoft", "surface",
   "sony", "jbl", "bose", "beats", "skullcandy", "sennheiser",
   "anker", "soundcore", "baseus", "ugreen", "aukey", "romoss",
   "boat", "edifier",
   "casio", "fossil", "garmin"]

/-- Split a character list at every occurrence of one separator (the
semantics of splitting a string on a one-character separator: empty
pieces are kept, the empty input gives one empty piece). -/
def splitCharAux (sep : Char) : List Char → List Char → List String
  | acc, [] => [String.mk acc.reverse]
  | acc, c :: cs =>
    if c = sep then String.mk acc.reverse :: splitCharAux sep [] cs
    else splitCharAux sep (c :: acc) cs

/-- Split a string on a one-character separator. -/
def splitChar (sep : Char) (s : String) : List String := splitCharAux sep [] s.toList

/-- Lowercase a string character by character (the inputs the claims
touch are ASCII, where this agrees with the Python lower method). -/
def strLower (s : String) : String := String.mk (s.toList.map Char.toLower)

/-- Strip leading and trailing whitespace (the Python strip method). -/
def strTrim (s : String) : String :=
  String.mk (((s.toList.dropWhile Char.isWhitespace).reverse.dropWhile
    Char.isWhitespace).reverse)

/-- Replace every occurrence of one character by a string (the Python
replace method for the one-character patterns the source uses). -/
def replaceChar (pat : Char) (rep : String) (s : String) : String :=
  String.mk (s.toList.flatMap (fun c => if c = pat then rep.toList else [c]))

/-- Code-point lexicographic comparison of character lists (the Python
string order). -/
def charListLe : List Char → List Char → Bool
  | [], _ => true
  | x :: xs, y :: ys =>
    if x < y then true
    else if y < x then false
    else charListLe xs ys
  | _, [] => false

/-- Code-point lexicographic comparison of strings. -/
def strLe (a b : String) : Bool := charListLe a.toList b.toList

/-- Insert into a list sorted by strLe. -/
def insertSorted (x : String) : List String → List String
  | [] => [x]
  | y :: ys => if strLe x y then x :: y :: ys else y :: insertSorted x ys

/-- Insertion sort by strLe (the Python sorted builtin on strings). -/
def sortStrings (l : List String) : List String := l.foldr insertSorted []

/-- Deduplication keeping the first occurrence (the uniq loop at the end
of expand_tokens). -/
def dedupFirstAux : List String → List String → List String
  | _, [] => []
  | seen, t :: ts => if t ∈ seen then dedupFirstAux seen ts else t :: dedupFirstAux (t :: seen) ts

/-- Deduplication keeping the first occurrence. -/
def dedupFirst (l : List String) : List String := dedupFirstAux [] l

/-- One character of normalize_text: keep lowercase letters, digits and
hyphens, everything else becomes a space (the source first turns
carriage returns, newlines and tabs into spaces and then replaces every
character outside a-z 0-9 whitespace hyphen by a space; after the final
whitespace collapse the two pipelines agree character for character). -/
def normChar (c : Char) : Char :=
  if ('a' ≤ c && c ≤ 'z') || ('0' ≤ c && c ≤ '9') || c = '-' then c else ' '

/-- normalize_text of app/nlp.py: lowercase, map every character outside
a-z 0-9 hyphen to a space, collapse whitespace runs, trim. -/
def normalize_text (s : String) : String :=
  let mapped := String.mk ((strLower s).toList.map normChar)
  String.intercalate " " ((splitChar ' ' mapped).filter (fun t => !(t == "")))

/-- tokenize of app/nlp.py: normalize, split on spaces, split each piece
on hyphens, drop empty pieces and stopwords. -/
def tokenize (s : String) : List String :=
  let pieces := splitChar ' ' (normalize_text s)
  let parts := pieces.flatMap (fun t => splitChar '-' t)
  parts.filter (fun p => !(p == "") && !(STOPWORDS.contains p))

/-- jaccard of app/matching.py on string sets, with exact rational result. -/
def jaccard (a b : Finset String) : ℚ :=
  if a = ∅ ∧ b = ∅ then 0
  else
    let inter := (a ∩ b).card
    let union := (a ∪ b).card
    if union = 0 then 0 else (inter : ℚ) / (union : ℚ)

/-- Canonical base colors of app/nlp.py (BASE_COLORS). -/
def BASE_COLORS : List String :=
  ["black", "white", "gray", "red", "blue", "green", "yellow", "orange",
   "pink", "purple", "brown",
   "silver", "gold", "navy", "maroon",
   "beige", "cream", "ivory", "tan", "khaki",
   "teal", "turquoise", "cyan", "aqua",
   "magenta", "lavender", "violet", "indigo",
   "lime", "mint", "olive",
   "burgundy", "peach", "mustard",
   "bronze", "copper",
   "charcoal"]

/-- Color alias table of app/nlp.py (COLOR_ALIASES). -/
def COLOR_ALIASES : List (String × String) :=
  [("grey", "gray"),
   ("offwhite", "off white"),
   ("off-white", "off white"),
   ("offwhitee", "off white"),
   ("golden", "gold"),
   ("bluish", "blue"),
   ("reddish", "red"),
   ("greenish", "green"),
   ("pinkish", "pink"),
   ("purplish", "purple"),
   ("violetish", "violet"),
   ("transparent", "transparent"),
   ("clear", "transparent"),
   ("seethrough", "transparent"),
   ("see-through", "transparent")]

/-- _canon_color of app/nlp.py. -/
def canon_color (s : String) : String :=
  let s := strLower (strTrim s)
  match COLOR_ALIASES.find? (fun p => p.1 == s) with
  | some p => p.2
  | none => s

/-- Shade modifiers of SHADE_RE / SHADE_JOINED_RE in app/nlp.py. -/
def SHADE_WORDS : List String := ["light", "dark", "deep", "pale", "bright", "neon"]

/-- Base-color alternation of SHADE_RE / SHADE_JOINED_RE in app/nlp.py
(includes the alias spelling grey). -/
def SHADE_BASES : List String :=
  ["black", "white", "gray", "grey", "red", "blue", "green", "yellow", "orange", "pink",
   "purple", "brown", "navy", "maroon",
   "beige", "cream", "ivory", "tan", "khaki", "teal", "turquoise", "cyan", "aqua",
   "magenta", "lavender", "violet", "indigo",
   "lime", "mint", "olive", "burgundy", "peach", "mustard", "silver", "gold",
   "bronze", "copper", "charcoal"]

/-- Special multi-word color phrases of app/nlp.py (SPECIAL_COLOR_PHRASES):
phrase, canonical color, implied extra colors. -/
def SPECIAL_COLOR_PHRASES : List (String × String × List String) :=
  [("rose gold", "rose gold", ["gold"]),
   ("space gray", "space gray", ["gray"]),
   ("space grey", "space gray", ["gray"]),
   ("off white", "off white", ["white"]),
   ("see through", "transparent", []),
   ("see-through", "transparent", [])]

/-- Substring test: the Python operator p in s on strings. -/
def strContains (pat s : String) : Bool := decide (pat.toList <:+: s.toList)

/-- Last hyphen-separated part of a space-separated chunk. -/
def lastHyphenPart (c : String) : String := (splitChar '-' c).getLastD ""

/-- First hyphen-separated part of a space-separated chunk. -/
def firstHyphenPart (c : String) : String := (splitChar '-' c).headD ""

/-- Matches of SHADE_RE over a normalized string.  In a normalized string
(characters a-z 0-9 space hyphen, single spaces, trimmed) the regex
shade whitespace base with word boundaries on both ends matches exactly
when a chunk ends (at a hyphen or chunk boundary) in a shade word and
the next chunk starts with a base word: word boundaries sit only at
spaces, hyphens and the string ends.  Returns (shade, canonical base). -/
def shadeMatches (norm : String) : List (String × String) :=
  let chunks := splitChar ' ' norm
  (chunks.zip chunks.tail).filterMap (fun p =>
    let sh := lastHyphenPart p.1
    let b := firstHyphenPart p.2
    if SHADE_WORDS.contains sh && SHADE_BASES.contains b then some (sh, canon_color b) else none)

/-- Decomposition of one word as shade followed immediately by base
(SHADE_JOINED_RE, which runs on the hyphen-stripped normalized string):
with boundaries on both ends the whole word must be shade ++ base. -/
def splitShadeJoined (w : String) : Option (String × String) :=
  SHADE_WORDS.findSome? (fun sh =>
    if sh.toList.isPrefixOf w.toList then
      let rest := String.mk (w.toList.drop sh.toList.length)
      if SHADE_BASES.contains rest then some (sh, canon_color rest) else none
    else none)

/-- Matches of SHADE_JOINED_RE over the hyphen-stripped normalized string. -/
def shadeJoinedMatches (norm : String) : List (String × String) :=
  (splitChar ' ' (replaceChar '-' "" norm)).filterMap splitShadeJoined

/-- extract_colors of app/nlp.py: special phrases, shade grammar
(space-separated and concatenated), and per-token canonical lookups;
returns the sorted deduplicated list. -/
def extract_colors (text : String) (tokens : List String) (norm : String) : List String :=
  let special := SPECIAL_COLOR_PHRASES.foldl
    (fun acc p => if strContains p.1 norm then (acc ++ [p.2.1]) ++ p.2.2 else acc) []
  let shades := (shadeMatches norm ++ shadeJoinedMatches norm).flatMap
    (fun p => [p.1 ++ " " ++ p.2, p.2])
  let tokenColors := tokens.flatMap (fun t =>
    let ct := canon_color t
    (if BASE_COLORS.contains ct then [ct] else [])
      ++ (if ct == "transparent" || ct == "off white" then [ct] else []))
  sortStrings (dedupFirst (special ++ shades ++ tokenColors))

/-- ITEM_SYNONYMS of app/nlp.py, in the dictionary's insertion order. -/
def ITEM_SYNONYMS : List (String × List String) :=
  [("phone",
    ["phone", "phones", "mobile", "mobiles", "cell", "cellphone", "cellphones", "cell-phone",
     "cell-phones", "smartphone", "smartphones", "handset", "handsets", "iphone", "iphones",
     "android"]),
   ("laptop",
    ["laptop", "laptops", "notebook", "notebooks", "macbook", "macbooks", "ultrabook",
     "ultrabooks"]),
   ("tablet", ["tablet", "tablets", "ipad", "ipads", "tab", "tabs"]),
   ("earbuds",
    ["earbud", "earbuds", "earphone", "earphones", "earpiece", "earpieces", "airpod", "airpods",
     "headset", "headsets", "tws", "buds"]),
   ("headphones", ["headphone", "headphones", "head-set", "head-sets", "headset", "headsets"]),
   ("powerbank", ["powerbank", "power-bank", "powerbanks", "power-banks"]),
   ("charger",
    ["charger", "chargers", "adapter", "adaptor", "adapters", "adaptors", "charging", "charge",
     "cable", "cables", "wire", "wires", "typec", "type-c", "usbc", "usb-c", "microusb",
     "micro-usb", "lightning"]),
   ("usb",
    ["usb", "pendrive", "pen-drive", "flashdrive", "flash-drive", "thumbdrive", "thumb-drive",
     "sdcard", "sd-card", "microsd", "memorycard", "memory-card"]),
   ("camera", ["camera", "cameras", "gopro", "dslr", "nikon", "canon", "tripod", "tripods"]),
   ("wallet",
    ["wallet", "wallets", "purse", "purses", "billfold", "billfolds", "cardholder", "card-holder",
     "cardholders", "card-holders", "moneybag", "money-bag", "moneybags"]),
   ("bag",
    ["bag", "bags", "backpack", "backpacks", "rucksack", "rucksacks", "handbag", "handbags",
     "satchel", "satchels", "pouch", "pouches", "luggage", "suitcase", "suitcases"]),
   ("keys", ["key", "keys", "keychain", "keychains", "keyring", "keyrings"]),
   ("card",
    ["card", "cards", "id", "nid", "studentid", "student-id", "license", "licence", "bankcard",
     "bank-card", "atm", "debit", "credit"]),
   ("documents",
    ["document", "documents", "paper", "papers", "file", "files", "certificate", "certificates",
     "passport", "passports", "ticket", "tickets", "receipt", "receipts", "letter", "letters"]),
   ("umbrella", ["umbrella", "umbrellas", "parasol", "parasols"]),
   ("fan",
    ["fan", "fans", "pocketfan", "pocket-fan", "pocketfans", "minifan", "mini-fan", "minifans",
     "handfan", "hand-fan", "handfans", "portablefan", "portable-fan"]),
   ("book",
    ["book", "books", "notebook", "notebooks", "textbook", "textbooks", "novel", "novels",
     "diary", "diaries", "journal", "journals", "copy", "copies", "khata", "khatas"]),
   ("bottle",
    ["bottle", "bottles", "waterbottle", "water-bottle", "flask", "flasks", "thermos", "sipper"]),
   ("glasses", ["glasses", "spectacles", "goggles", "sunglass", "sunglasses", "specs"]),
   ("jewelry",
    ["ring", "rings", "necklace", "necklaces", "bracelet", "bracelets", "chain", "chains",
     "earring", "earrings", "jewelry", "jewellery"]),
   ("money", ["money", "cash", "tk", "taka", "note", "notes", "coin", "coins"]),
   ("clothing",
    ["jacket", "jackets", "coat", "coats", "hoodie", "hoodies", "sweater", "sweaters", "shirt",
     "shirts", "tshirt", "t-shirt", "tshirts", "t-shirts", "pant", "pants", "trouser", "trousers",
     "scarf", "scarves", "cap", "caps", "hat", "hats", "mask", "masks"]),
   ("calculator", ["calculator", "calculators", "casio"]),
   ("watch", ["watch", "watches", "smartwatch", "smartwatches", "band", "bands"])]

/-- ITEM_PHRASES of app/nlp.py, in the dictionary's insertion order. -/
def ITEM_PHRASES : List (String × List String) :=
  [("powerbank", ["power bank", "powerbank", "power-bank"]),
   ("charger",
    ["phone charger", "mobile charger", "laptop charger", "charging cable", "charger cable",
     "type c cable", "type-c cable", "usb c cable", "usb-c cable", "micro usb cable",
     "micro-usb cable", "lightning cable"]),
   ("card", ["id card", "student id", "student-id", "nid card", "atm card", "bank card"]),
   ("usb",
    ["usb drive", "flash drive", "flash-drive", "pen drive", "pen-drive", "memory card",
     "sd card"]),
   ("earbuds",
    ["bluetooth earphone", "wireless earphone", "true wireless", "tws earbud", "tws earbuds"]),
   ("fan", ["pocket fan", "mini fan", "hand fan", "portable fan"]),
   ("book", ["exercise book", "text book", "textbook", "note book", "note-book"]),
   ("documents",
    ["national id", "nid card", "birth certificate", "exam admit", "admit card"])]

/-- Synonym list of one category. -/
def synonymsOf (c : String) : List String :=
  ((ITEM_SYNONYMS.find? (fun p => p.1 == c)).map (fun p => p.2)).getD []

/-- Phrase list of one category. -/
def phrasesOf (c : String) : List String :=
  ((ITEM_PHRASES.find? (fun p => p.1 == c)).map (fun p => p.2)).getD []

/-- TOKEN_CANONICAL_MAP of app/nlp.py: the dict is built by inserting
every synonym of every category in dictionary order, so a token that is
a synonym of several categories maps to the last such category. -/
def tokenCanonicalMap (t : String) : Option String :=
  (ITEM_SYNONYMS.reverse.find? (fun p => p.2.contains t)).map (fun p => p.1)

/-- The per-category score of infer_item_type: 3 per phrase of the
category occurring in the normalized text plus 1 per distinct token that
is a synonym of the category. -/
def itemScore (tokens : List String) (norm : String) (c : String) : ℕ :=
  3 * (phrasesOf c).countP (fun p => strContains p norm)
    + ((tokens.toFinset).filter (fun t => t ∈ synonymsOf c)).card

/-- Tie-break preference order of infer_item_type. -/
def PREFERENCE : List String :=
  ["documents", "card", "wallet", "keys", "phone", "laptop", "tablet", "earbuds", "headphones",
   "powerbank", "charger", "usb", "camera", "umbrella", "fan", "book", "glasses", "bottle",
   "jewelry", "money", "watch", "calculator", "bag", "clothing"]

/-- pref_rank lookup with the source's default 10000 for unknown keys. -/
def pref_rank (c : String) : ℕ := (PREFERENCE.findIdx? (fun x => x == c)).getD 10000

/-- pref_rank of best_type or the empty string when best_type is None. -/
def prefRankOpt : Option String → ℕ
  | none => 10000
  | some c => pref_rank c

/-- One step of the selection loop of infer_item_type. -/
def itemStep (tokens : List String) (norm : String) (acc : Option String × ℕ) (c : String) :
    Option String × ℕ :=
  if itemScore tokens norm c > acc.2 then (some c, itemScore tokens norm c)
  else if itemScore tokens norm c = acc.2 ∧ 0 < itemScore tokens norm c
      ∧ pref_rank c < prefRankOpt acc.1 then (some c, acc.2)
  else acc

/-- infer_item_type of app/nlp.py: fold the selection loop over the
categories in dictionary order starting from (None, 0); return the best
category only when its score is positive. -/
def infer_item_type (text : String) (tokens : List String) (norm : String) : Option String :=
  let best := (ITEM_SYNONYMS.map (fun p => p.1)).foldl (itemStep tokens norm) (none, 0)
  if best.2 > 0 then best.1 else none

/-- Spec-side variant of itemScore, following the specification's words
literally: only MULTI-WORD phrases (phrases containing a space) earn the
+3 phrase bonus. The source's itemScore, in contrast, awards +3 for
every phrase-table entry, including the single-word spellings such as
textbook, powerbank and flash-drive. -/
def specItemScoreMultiWord (tokens : List String) (norm : String) (c : String) : ℕ :=
  3 * ((phrasesOf c).filter (fun p => strContains " " p)).countP (fun p => strContains p norm)
    + ((tokens.toFinset).filter (fun t => t ∈ synonymsOf c)).card

/-- The body of the expansion loop of expand_tokens: append the
canonical category of a synonym token and the canonical color of an
alias token when absent. -/
def expandStep (exp : List String) (t : String) : List String :=
  let exp1 := match tokenCanonicalMap t with
    | some canon => if canon ∉ exp then exp ++ [canon] else exp
    | none => exp
  let ct := canon_color t
  if ct ≠ t ∧ ct ∉ exp1 then exp1 ++ [ct] else exp1

/-- expand_tokens of app/nlp.py: append the canonical category of each
synonym token and the canonical color of each alias token when absent,
add transparent when see and through both occur, dedup keeping first. -/
def expand_tokens (tokens : List String) : List String :=
  let expanded := tokens.foldl expandStep tokens
  let expanded := if "see" ∈ tokens ∧ "through" ∈ tokens ∧ "transparent" ∉ expanded then
      expanded ++ ["transparent"]
    else expanded
  dedupFirst expanded

/-- 2 to the 32, the word modulus of SHA-256. -/
def TwoPow32 : ℕ := 4294967296

/-- Reduce to a 32-bit word. -/
def w32 (n : ℕ) : ℕ := n % TwoPow32

/-- Right rotation of a 32-bit word (argument below 2 to the 32). -/
def rotr (k x : ℕ) : ℕ := (x % 2 ^ k) * 2 ^ (32 - k) + x / 2 ^ k

/-- Right shift. -/
def shr (k x : ℕ) : ℕ := x / 2 ^ k

/-- Bitwise complement of a 32-bit word. -/
def not32 (x : ℕ) : ℕ := 4294967295 - x

/-- SHA-256 round constants. -/
def SHA_K : List ℕ :=
  [1116352408, 1899447441, 3049323471, 3921009573, 961987163,
   1508970993, 2453635748, 2870763221, 3624381080, 310598401,
   607225278, 1426881987, 1925078388, 2162078206, 2614888103,
   3248222580, 3835390401, 4022224774, 264347078, 604807628,
   770255983, 1249150122, 1555081692, 1996064986, 2554220882,
   2821834349, 2952996808, 3210313671, 3336571891, 3584528711,
   113926993, 338241895, 666307205, 773529912, 1294757372,
   1396182291, 1695183700, 1986661051, 2177026350, 2456956037,
   2730485921, 2820302411, 3259730800, 3345764771, 3516065817,
   3600352804, 4094571909, 275423344, 430227734, 506948616,
   659060556, 883997877, 958139571, 1322822218, 1537002063,
   1747873779, 1955562222, 2024104815, 2227730452, 2361852424,
   2428436474, 2756734187, 3204031479, 3329325298]

/-- SHA-256 small sigma 0. -/
def ssig0 (x : ℕ) : ℕ := w32 ((rotr 7 x) ^^^ (rotr 18 x) ^^^ (shr 3 x))

/-- SHA-256 small sigma 1. -/
def ssig1 (x : ℕ) : ℕ := w32 ((rotr 17 x) ^^^ (rotr 19 x) ^^^ (shr 10 x))

/-- SHA-256 big sigma 0. -/
def bsig0 (x : ℕ) : ℕ := w32 ((rotr 2 x) ^^^ (rotr 13 x) ^^^ (rotr 22 x))

/-- SHA-256 big sigma 1. -/
def bsig1 (x : ℕ) : ℕ := w32 ((rotr 6 x) ^^^ (rotr 11 x) ^^^ (rotr 25 x))

/-- UTF-8 encoding of one code point. -/
def utf8Char (c : Char) : List ℕ :=
  let n := c.toNat
  if n < 128 then [n]
  else if n < 2048 then [192 + n / 64, 128 + n % 64]
  else if n < 65536 then [224 + n / 4096, 128 + (n / 64) % 64, 128 + n % 64]
  else [240 + n / 262144, 128 + (n / 4096) % 64, 128 + (n / 64) % 64, 128 + n % 64]

/-- UTF-8 bytes of a string. -/
def utf8Bytes (s : String) : List ℕ := s.toList.flatMap utf8Char

/-- Big-endian bytes of a number, fixed width. -/
def beBytes : ℕ → ℕ → List ℕ
  | 0, _ => []
  | k + 1, n => n / 2 ^ (8 * k) % 256 :: beBytes k n

/-- SHA-256 padding: append 0x80, zeros to 56 mod 64, and the 64-bit
big-endian bit length. -/
def shaPad (msg : List ℕ) : List ℕ :=
  let L := msg.length
  msg ++ [128] ++ List.replicate ((119 - L % 64) % 64) 0 ++ beBytes 8 (8 * L)

/-- Split a list into chunks of the given size. -/
def chunksAux {α : Type} (k : ℕ) : ℕ → List α → List (List α)
  | 0, _ => []
  | _, [] => []
  | fuel + 1, l => l.take k :: chunksAux k fuel (l.drop k)

/-- Split a list into chunks of the given size. -/
def chunks {α : Type} (k : ℕ) (l : List α) : List (List α) := chunksAux k l.length l

/-- The sixteen 32-bit big-endian words of one 64-byte block. -/
def blockWords (b : List ℕ) : List ℕ :=
  (chunks 4 b).map (fun w => w.foldl (fun acc x => acc * 256 + x) 0)

/-- One extension step of the SHA-256 message schedule. -/
def schedStep (ws : List ℕ) : List ℕ :=
  ws ++ [w32 (ssig1 (ws.getD (ws.length - 2) 0) + ws.getD (ws.length - 7) 0
    + ssig0 (ws.getD (ws.length - 15) 0) + ws.getD (ws.length - 16) 0)]

/-- The 64-entry message schedule of one block. -/
def schedule (b : List ℕ) : List ℕ :=
  (List.range 48).foldl (fun ws _ => schedStep ws) (blockWords b)

/-- SHA-256 chaining state. -/
structure H8 where
  a : ℕ
  b : ℕ
  c : ℕ
  d : ℕ
  e : ℕ
  f : ℕ
  g : ℕ
  h : ℕ
deriving Repr, DecidableEq

/-- Initial SHA-256 state. -/
def shaInit : H8 :=
  ⟨1779033703, 3144134277, 1013904242, 2773480762, 1359893119, 2600822924, 528734635, 1541459225⟩

/-- One SHA-256 round. -/
def shaRound (st : H8) (wk : ℕ × ℕ) : H8 :=
  let t1 := w32 (st.h + bsig1 st.e + ((st.e &&& st.f) ^^^ (not32 (w32 st.e) &&& st.g))
    + wk.2 + wk.1)
  let t2 := w32 (bsig0 st.a + ((st.a &&& st.b) ^^^ (st.a &&& st.c) ^^^ (st.b &&& st.c)))
  ⟨w32 (t1 + t2), st.a, st.b, st.c, w32 (st.d + t1), st.e, st.f, st.g⟩

/-- Compress one 64-byte block into the chaining state. -/
def compressBlock (st : H8) (b : List ℕ) : H8 :=
  let fin := ((schedule b).zip SHA_K).foldl shaRound st
  ⟨w32 (st.a + fin.a), w32 (st.b + fin.b), w32 (st.c + fin.c), w32 (st.d + fin.d),
   w32 (st.e + fin.e), w32 (st.f + fin.f), w32 (st.g + fin.g), w32 (st.h + fin.h)⟩

/-- SHA-256 digest bytes of a byte message. -/
def sha256Bytes (msg : List ℕ) : List ℕ :=
  let fin := (chunks 64 (shaPad msg)).foldl compressBlock shaInit
  beBytes 4 fin.a ++ beBytes 4 fin.b ++ beBytes 4 fin.c ++ beBytes 4 fin.d
    ++ beBytes 4 fin.e ++ beBytes 4 fin.f ++ beBytes 4 fin.g ++ beBytes 4 fin.h

/-- Lowercase hex digit characters. -/
def HEX_CHARS : List Char := "0123456789abcdef".toList

/-- Two lowercase hex characters of one byte. -/
def byteHex (b : ℕ) : List Char := [HEX_CHARS.getD (b / 16 % 16) '0', HEX_CHARS.getD (b % 16) '0']

/-- Lowercase hex digest string of a byte list. -/
def hexOfBytes (bs : List ℕ) : String := String.mk (bs.flatMap byteHex)

/-- _hash_id of app/nlp.py: sha256 of the salt LFv1: plus the value,
hex digest truncated to its first 16 characters (the truncation is done
on the character list, which is the same thing). -/
def hash_id (value : String) : String :=
  String.mk (((sha256Bytes (utf8Bytes ("LFv1:" ++ value))).flatMap byteHex).take 16)

/-- Word character of the regex word class (ASCII model of backslash-w). -/
def isWordChar (c : Char) : Bool := c.isAlpha || c.isDigit || c = '_'

/-- Character class of the local part of EMAIL_RE. -/
def isLocalChar (c : Char) : Bool :=
  c.isAlpha || c.isDigit || c = '.' || c = '_' || c = '%' || c = '+' || c = '-'

/-- Character class of the domain part of EMAIL_RE. -/
def isDomChar (c : Char) : Bool := isWordChar c || c = '.' || c = '-'

/-- ASCII letter. -/
def isAsciiLetter (c : Char) : Bool := c.isUpper || c.isLower

/-- Maximal run of characters satisfying the class, and the remainder. -/
def takeRun (p : Char → Bool) : List Char → List Char × List Char
  | [] => ([], [])
  | c :: cs =>
    if p c then
      let r := takeRun p cs
      (c :: r.1, r.2)
    else ([], c :: cs)

/-- Word boundary between two adjacent positions: exactly one side is a
word character; the ends of the string count as non-word. -/
def isBoundary (prevIsWord : Bool) (next : Option Char) : Bool :=
  prevIsWord != (next.map isWordChar).getD false

/-- After the mandatory dot of EMAIL_RE: the greedy letter run, which
must have length at least two and end at a word boundary. -/
def emailTld (dom : List Char) (r : ℕ) (rest : List Char) : Option ℕ :=
  let letters := (takeRun isAsciiLetter (dom.drop (r + 1))).1
  let endPos := r + 1 + letters.length
  let next := if endPos < dom.length then dom.get? endPos else rest.head?
  if letters.length ≥ 2 && !((next.map isWordChar).getD false) then some endPos else none

/-- Candidate split positions of the domain: the greedy one-or-more part
of EMAIL_RE consumes r characters and the next domain character must be
the literal dot; backtracking tries the largest r first. -/
def emailSplit (dom : List Char) (rest : List Char) : ℕ → Option (ℕ × ℕ)
  | 0 => none
  | r + 1 =>
    if dom.getD (r + 1) 'x' = '.' then
      match emailTld dom (r + 1) rest with
      | some endPos => some (r + 1, endPos)
      | none => emailSplit dom rest r
    else emailSplit dom rest r

/-- Match of EMAIL_RE anchored at the current position (the boundary
before the position is checked by the caller): a nonempty local run, a
literal at sign, then the backtracking domain match.  Returns the
matched characters and the remaining input. -/
def matchEmailAt (cs : List Char) : Option (List Char × List Char) :=
  let lr := takeRun isLocalChar cs
  if lr.1.isEmpty then none
  else
    match lr.2 with
    | '@' :: afterAt =>
      let dr := takeRun isDomChar afterAt
      let dom := dr.1
      match emailSplit dom dr.2 (dom.length - 1) with
      | some pr =>
        some (lr.1 ++ '@' :: dom.take pr.2, dom.drop pr.2 ++ dr.2)
      | none => none
    | _ => none

/-- finditer of EMAIL_RE: scan left to right, attempt an anchored match
at every position whose preceding boundary holds, continue after each
match; the fuel is the remaining length. -/
def emailScanAux : ℕ → Bool → List Char → List String
  | 0, _, _ => []
  | fuel + 1, pw, cs =>
    match cs with
    | [] => []
    | c :: rest =>
      if isLocalChar c && (pw != isWordChar c) then
        match matchEmailAt (c :: rest) with
        | some m =>
          String.mk m.1 :: emailScanAux fuel (isWordChar (m.1.getLastD ' ')) m.2
        | none => emailScanAux fuel (isWordChar c) rest
      else emailScanAux fuel (isWordChar c) rest

/-- All EMAIL_RE matches of a raw text. -/
def emailMatches (text : String) : List String :=
  emailScanAux text.toList.length false text.toList

/-- Match of BD_PHONE_RE anchored at the current position: an optional
plus-880 or 880 prefix, then 01 and nine digits, with a word boundary
after the match.  The alternatives are mutually exclusive on their first
character, so the greedy optional group needs no real backtracking. -/
def matchPhoneAt (cs : List Char) : Option (List Char × List Char) :=
  let core : List Char → Option (List Char × List Char) := fun l =>
    match l with
    | '0' :: '1' :: ds =>
      let nine := ds.take 9
      if nine.length = 9 && nine.all Char.isDigit then some ('0' :: '1' :: nine, ds.drop 9)
      else none
    | _ => none
  match cs with
  | '+' :: '8' :: '8' :: '0' :: l =>
    (core l).map (fun pr => ('+' :: '8' :: '8' :: '0' :: pr.1, pr.2))
  | '8' :: '8' :: '0' :: l =>
    (core l).map (fun pr => ('8' :: '8' :: '0' :: pr.1, pr.2))
  | l => core l

/-- finditer of BD_PHONE_RE with both word boundaries. -/
def phoneScanAux : ℕ → Bool → List Char → List String
  | 0, _, _ => []
  | fuel + 1, pw, cs =>
    match cs with
    | [] => []
    | c :: rest =>
      if pw != isWordChar c then
        match matchPhoneAt (c :: rest) with
        | some m =>
          if isBoundary (isWordChar (m.1.getLastD ' ')) m.2.head? then
            String.mk m.1 :: phoneScanAux fuel (isWordChar (m.1.getLastD ' ')) m.2
          else phoneScanAux fuel (isWordChar c) rest
        | none => phoneScanAux fuel (isWordChar c) rest
      else phoneScanAux fuel (isWordChar c) rest

/-- All BD_PHONE_RE matches of a string. -/
def phoneMatches (s : String) : List String :=
  phoneScanAux s.toList.length false s.toList

/-- finditer of LONG_DIGITS_RE: maximal digit runs of length 10 to 20
delimited by word boundaries; a run that fails the test is skipped whole,
since no interior position sits at a word boundary. -/
def digitScanAux : ℕ → Bool → List Char → List String
  | 0, _, _ => []
  | fuel + 1, pw, cs =>
    match cs with
    | [] => []
    | c :: rest =>
      if c.isDigit then
        let run := takeRun Char.isDigit (c :: rest)
        let ok := !pw && decide (10 ≤ run.1.length) && decide (run.1.length ≤ 20)
          && !((run.2.head?.map isWordChar).getD false)
        let tail := digitScanAux fuel true run.2
        if ok then String.mk run.1 :: tail else tail
      else digitScanAux fuel (isWordChar c) rest

/-- All LONG_DIGITS_RE matches of a string. -/
def digitMatches (s : String) : List String :=
  digitScanAux s.toList.length false s.toList

/-- extract_identifiers of app/nlp.py: tagged emails (lowercased), BD
phone numbers on the space- and hyphen-stripped normalized text, and
long digit runs on the normalized text, hashed, deduplicated, sorted. -/
def extract_identifiers (text : String) : List String :=
  let norm := normalize_text text
  let ids := (emailMatches text).map (fun m => "email:" ++ strLower m)
    ++ (phoneMatches (replaceChar '-' "" (replaceChar ' ' "" norm))).map (fun m => "phone:" ++ m)
    ++ (digitMatches norm).map (fun m => "num:" ++ m)
  sortStrings (dedupFirst (ids.map hash_id))

/-- Unique-mark vocabulary of extract in app/nlp.py: canonical mark and
its synonym set. -/
def MARK_WORDS : List (String × List String) :=
  [("sticker", ["sticker", "stickers"]),
   ("scratch", ["scratch", "scratched", "scratches"]),
   ("engraved", ["engraved", "engraving", "etched"]),
   ("crack", ["crack", "cracked", "broken"]),
   ("tear", ["tear", "torn"]),
   ("dent", ["dent", "dented"]),
   ("lock", ["lock", "locked"])]

/-- Scan for the contains clause of extract: the first position of the
word contains (with word boundaries on both sides, which in a normalized
string sit at spaces, hyphens and the ends) followed by at least one
character; returns the remainder after the word. -/
def containsScanAux : ℕ → Bool → List Char → Option String
  | 0, _, _ => none
  | fuel + 1, pw, cs =>
    match cs with
    | [] => none
    | c :: rest =>
      if !pw && ['c', 'o', 'n', 't', 'a', 'i', 'n', 's'].isPrefixOf (c :: rest)
          && !((((c :: rest).drop 8).head?.map isWordChar).getD true) then
        some (String.mk ((c :: rest).drop 8))
      else containsScanAux fuel (isWordChar c) rest

/-- The contained list of extract: the text after the first whole-word
contains, split on commas, trimmed, empties dropped. -/
def containedClause (norm : String) : List String :=
  match containsScanAux norm.toList.length false norm.toList with
  | some rest => ((splitChar ',' rest).map (fun x => strTrim x)).filter (fun x => !(x == ""))
  | none => []

/-- The feature record produced by extract (FeatureRecord of the spec). -/
structure Extracted where
  tokens : List String
  item_type : Option String
  colors : List String
  brand : Option String
  unique_marks : List String
  contained : List String
  identifiers : List String
deriving Repr, DecidableEq

/-- The empty feature record: what loads_extracted yields on malformed
input, every field falsy. -/
def Extracted.empty : Extracted := ⟨[], none, [], none, [], [], []⟩

/-- extract of app/nlp.py. -/
def extract (report_text : String) : Extracted :=
  let norm := normalize_text report_text
  let tokens1 := expand_tokens (tokenize report_text)
  let identifiers := extract_identifiers report_text
  let colors := extract_colors report_text tokens1 norm
  let brands := sortStrings (dedupFirst (tokens1.filter (fun t => COMMON_BRANDS.contains t)))
  let brand := brands.head?
  let item_type := infer_item_type report_text tokens1 norm
  let tokens2 := match item_type with
    | some it => if it ∉ tokens1 then tokens1 ++ [it] else tokens1
    | none => tokens1
  let unique_marks := MARK_WORDS.foldl
    (fun acc p => if p.2.any (fun s => tokens2.contains s) then acc ++ [p.1] else acc) []
  { tokens := tokens2,
    item_type := item_type,
    colors := colors,
    brand := brand,
    unique_marks := sortStrings (dedupFirst unique_marks),
    contained := containedClause norm,
    identifiers := identifiers }

/-- Space join: the Python expression with a space separator. -/
def joinSpace : List String → String
  | [] => ""
  | [x] => x
  | x :: xs => x ++ " " ++ joinSpace xs

/-- The unique_marks branch of apply_clarification in app/nlp.py: plain
substring checks over the space-joined expanded answer tokens; note it
recognizes neither dent nor lock. -/
def clarificationMarks (ansTokens : List String) : List String :=
  let s := joinSpace ansTokens
  let marks : List String :=
    (if strContains "sticker" s then ["sticker"] else [])
    ++ (if strContains "scratch" s then ["scratch"] else [])
    ++ (if strContains "engraved" s || strContains "etch" s then ["engraved"] else [])
    ++ (if strContains "crack" s || strContains "broken" s then ["crack"] else [])
    ++ (if strContains "tear" s || strContains "torn" s then ["tear"] else [])
  sortStrings (dedupFirst marks)

/-- The trailing step of apply_clarification: when item_type is set
(and truthy) but missing from the tokens, append it. -/
def keepItemTypeToken (e : Extracted) : Extracted :=
  match e.item_type with
  | some it => if it ≠ "" ∧ it ∉ e.tokens then { e with tokens := e.tokens ++ [it] } else e
  | none => e

/-- apply_clarification of app/nlp.py on a feature record. -/
def apply_clarification (extracted : Extracted) (key : String) (answer : String) : Extracted :=
  let ansTokens := expand_tokens (tokenize answer)
  let norm := normalize_text answer
  let e := { extracted with tokens := expand_tokens (extracted.tokens ++ ansTokens) }
  let e :=
    if key = "brand" then
      let brands := ansTokens.filter (fun t => COMMON_BRANDS.contains t)
      { e with brand := some ((brands.head?).getD ((ansTokens.head?).getD (strLower (strTrim answer)))) }
    else if key = "colors" then
      { e with colors := extract_colors answer ansTokens norm }
    else if key = "item_type" then
      { e with item_type := (infer_item_type answer ansTokens norm).orElse (fun _ => ansTokens.head?) }
    else if key = "unique_marks" then
      { e with unique_marks := clarificationMarks ansTokens }
    else e
  keepItemTypeToken e

/-- A parsed Python datetime: naive microseconds on the proleptic
Gregorian time line plus an optional UTC offset in seconds (None for a
naive datetime, Some for an aware one). -/
structure PyDatetime where
  micros : ℤ
  offSeconds : Option ℤ
deriving Repr, DecidableEq

/-- Expect one literal character. -/
def expectChar (c : Char) : List Char → Option (List Char)
  | x :: xs => if x = c then some xs else none
  | [] => none

/-- Parse exactly k decimal digits. -/
def parseDigits (k : ℕ) (cs : List Char) : Option (ℕ × List Char) :=
  let pre := cs.take k
  if pre.length = k && pre.all Char.isDigit then
    some (pre.foldl (fun acc c => acc * 10 + (c.toNat - 48)) 0, cs.drop k)
  else none

/-- Gregorian leap year. -/
def isLeap (y : ℕ) : Bool := y % 4 = 0 && (y % 100 ≠ 0 || y % 400 = 0)

/-- Days in a month. -/
def daysInMonth (y m : ℕ) : ℕ :=
  [31, if isLeap y then 29 else 28, 31, 30, 31, 30, 31, 31, 30, 31, 30, 31].getD (m - 1) 0

/-- Days from 1970-01-01 of a civil date (proleptic Gregorian). -/
def daysFromCivil (y m d : ℕ) : ℤ :=
  let yi : ℤ := if m ≤ 2 then (y : ℤ) - 1 else (y : ℤ)
  let era : ℤ := (if 0 ≤ yi then yi else yi - 399) / 400
  let yoe : ℤ := yi - era * 400
  let mN : ℤ := (m : ℤ)
  let doy : ℤ := (153 * (if mN > 2 then mN - 3 else mN + 9) + 2) / 5 + (d : ℤ) - 1
  let doe : ℤ := yoe * 365 + yoe / 4 - yoe / 100 + doy
  era * 146097 + doe - 719468

/-- Parse the time-of-day portion (must consume everything): HH, HH:MM,
HH:MM:SS or HH:MM:SS followed by a dot or comma and one or more
fraction digits (scaled to microseconds, truncated after six digits).
Hours, minutes and seconds are range checked as in the datetime
constructor. -/
def parseTime (cs : List Char) : Option (ℕ × ℕ × ℕ × ℕ) := do
  let p1 ← parseDigits 2 cs
  let hh := p1.1
  let rest ←
    match p1.2 with
    | [] => some ((0, 0, 0) : ℕ × ℕ × ℕ)
    | ':' :: r2 => do
      let p2 ← parseDigits 2 r2
      match p2.2 with
      | [] => some (p2.1, 0, 0)
      | ':' :: r4 => do
        let p3 ← parseDigits 2 r4
        match p3.2 with
        | [] => some (p2.1, p3.1, 0)
        | c :: r6 =>
          if c = '.' ∨ c = ',' then
            let run := takeRun Char.isDigit r6
            if run.1.isEmpty ∨ !run.2.isEmpty then none
            else
              let ds := (run.1.take 6) ++ List.replicate (6 - run.1.length) '0'
              some (p2.1, p3.1, ds.foldl (fun a c => a * 10 + (c.toNat - 48)) 0)
          else none
      | _ => none
    | _ => none
  if hh < 24 ∧ rest.1 < 60 ∧ rest.2.1 < 60 then some (hh, rest.1, rest.2.1, rest.2.2) else none

/-- Parse a UTC offset (must consume everything): a sign then HH, HHMM,
HH:MM or HH:MM:SS; the components are not individually range checked
(the timedelta normalizes them) but the total must be strictly below 24
hours, as the timezone constructor demands.  Returns signed seconds. -/
def parseTz (cs : List Char) : Option ℤ :=
  match cs with
  | sign :: rest =>
    if sign = '+' ∨ sign = '-' then do
      let p1 ← parseDigits 2 rest
      let total ←
        match p1.2 with
        | [] => some (p1.1 * 3600)
        | ':' :: r2 => do
          let p2 ← parseDigits 2 r2
          match p2.2 with
          | [] => some (p1.1 * 3600 + p2.1 * 60)
          | ':' :: r4 => do
            let p3 ← parseDigits 2 r4
            if p3.2.isEmpty then some (p1.1 * 3600 + p2.1 * 60 + p3.1) else none
          | _ => none
        | c :: _ =>
          if c.isDigit then do
            let p2 ← parseDigits 2 p1.2
            if p2.2.isEmpty then some (p1.1 * 3600 + p2.1 * 60) else none
          else none
      if total < 86400 then some (if sign = '-' then -(total : ℤ) else (total : ℤ)) else none
    else none
  | [] => none

/-- Model of datetime.fromisoformat on the separated ISO forms: a
YYYY-MM-DD date, optionally one separator character of any kind, a time
of day, and an optional numeric UTC offset (a Z suffix is rewritten to
plus zero by the caller).  The compact separator-free forms additionally
accepted by newer Python are outside the modelled grammar and parse to
None here.  Invalid dates, times and offsets parse to None, as the
corresponding constructors raise. -/
def fromIso (s : String) : Option PyDatetime :=
  let cs := s.toList
  do
    let py ← parseDigits 4 cs
    let r2 ← expectChar '-' py.2
    let pm ← parseDigits 2 r2
    let r4 ← expectChar '-' pm.2
    let pd ← parseDigits 2 r4
    let y := py.1
    let mo := pm.1
    let d := pd.1
    if 1 ≤ y ∧ y ≤ 9999 ∧ 1 ≤ mo ∧ mo ≤ 12 ∧ 1 ≤ d ∧ d ≤ daysInMonth y mo then
      let mk : ℕ × ℕ × ℕ × ℕ → Option ℤ → PyDatetime := fun t off =>
        ⟨daysFromCivil y mo d * 86400000000
          + ((t.1 * 3600 + t.2.1 * 60 + t.2.2.1 : ℕ) : ℤ) * 1000000 + (t.2.2.2 : ℕ), off⟩
      match pd.2 with
      | [] => some (mk (0, 0, 0, 0) none)
      | _ :: tcs =>
        if tcs.isEmpty then none
        else
          match tcs.findIdx? (fun c => c = '+' || c = '-') with
          | none => do
            let t ← parseTime tcs
            some (mk t none)
          | some i => do
            let t ← parseTime (tcs.take i)
            let off ← parseTz (tcs.drop i)
            some (mk t (some off))
    else none

/-- parse_iso of app/matching.py: None or the empty string parse to
None, a Z suffix is replaced by the zero offset, and any parsing error
becomes None. -/
def parse_iso (dt : Option String) : Option PyDatetime :=
  match dt with
  | none => none
  | some s => if s = "" then none else fromIso (replaceChar 'Z' "+00:00" s)

/-- Subtraction of two Python datetimes in microseconds: defined when
both are naive or both aware; mixing a naive and an aware datetime
raises, modelled as the error branch. -/
def dtSub (a b : PyDatetime) : Except Unit ℤ :=
  match a.offSeconds, b.offSeconds with
  | none, none => .ok (a.micros - b.micros)
  | some x, some y => .ok ((a.micros - x * 1000000) - (b.micros - y * 1000000))
  | _, _ => .error ()

/-- One-decimal rendering of a rational (used only inside reason
strings; approximates the Python float format). -/
def fmt1 (x : ℚ) : String :=
  let n := round (x * 10)
  let sgn := if n < 0 then "-" else ""
  let m := n.natAbs
  sgn ++ toString (m / 10) ++ "." ++ toString (m % 10)

/-- Two-decimal rendering of a rational (used only inside reason
strings; approximates the Python float format). -/
def fmt2 (x : ℚ) : String :=
  let n := round (x * 100)
  let sgn := if n < 0 then "-" else ""
  let m := n.natAbs
  sgn ++ toString (m / 100) ++ "." ++ toString (m / 10 % 10) ++ toString (m % 10)

/-- time_plausibility of app/matching.py.  The subtraction of an aware
and a naive datetime raises inside the function (there is no handler),
so the result is an Except: the error branch is an escaping exception. -/
def time_plausibility (lost_time found_time : Option String) :
    Except Unit (ℚ × Option String) :=
  match parse_iso lost_time, parse_iso found_time with
  | some lt, some ft =>
    match dtSub ft lt with
    | .error e => .error e
    | .ok dus =>
      let delta : ℚ := ((dus : ℚ) / 1000000) / 3600
      if delta < -1 then .ok (-0.15, some "Time seems inconsistent (found before lost).")
      else if 0 ≤ delta ∧ delta ≤ 72 then
        .ok (0.15, some ("Time plausible: found ~" ++ fmt1 delta ++ "h after lost."))
      else if 72 < delta ∧ delta ≤ 240 then
        .ok (0.05, some ("Time plausible but wide gap (~" ++ fmt1 (delta / 24) ++ " days)."))
      else .ok (0, none)
  | _, _ => .ok (0, none)

/-- MatchResult of app/matching.py with an exact rational score. -/
structure MatchResult where
  other_id : ℤ
  score : ℚ
  reasons : List String
deriving Repr, DecidableEq

/-- One report row as compute_match consumes it.  The extracted_json
column is carried in decoded form: the codec (dumps_extracted and
loads_extracted) round-trips the records this application stores, and a
missing or malformed column decodes to the empty record. -/
structure Row where
  id : ℤ
  kind : String
  title : String
  description : String
  location_text : String
  event_time : Option String
  extracted : Extracted
deriving Repr, DecidableEq

/-- Python truthiness of an optional string field. -/
def truthyOpt : Option String → Bool
  | none => false
  | some s => !(s == "")

/-- The concatenated title, description and location text of a row. -/
def rowText (r : Row) : String := r.title ++ " " ++ r.description ++ " " ++ r.location_text

/-- The token sets compared by the first scoring step of compute_match:
the raw texts are re-tokenized (the stored tokens field of the feature
record is not consulted, and expand_tokens is not applied here). -/
def textSim (a b : Row) : ℚ :=
  jaccard (tokenize (rowText a)).toFinset (tokenize (rowText b)).toFinset

/-- Step 1 of compute_match: text similarity times 0.55, reason when
the similarity exceeds 0.15. -/
def textPart (a b : Row) : ℚ × List String :=
  let ts := textSim a b
  (0.55 * ts,
   if ts > 0.15 then ["Text overlap looks similar (Jaccard " ++ fmt2 ts ++ ")."] else [])

/-- Step 2 of compute_match: item-type agreement. -/
def itemTypePart (a_ex b_ex : Extracted) : ℚ × List String :=
  if truthyOpt a_ex.item_type && truthyOpt b_ex.item_type then
    if a_ex.item_type = b_ex.item_type then
      (0.20, ["Item type matches: " ++ a_ex.item_type.getD "" ++ "."])
    else
      (-0.05, ["Item type differs (" ++ a_ex.item_type.getD "" ++ " vs "
        ++ b_ex.item_type.getD "" ++ ")."])
  else (0, [])

/-- Step 3 of compute_match: color-set overlap. -/
def colorsPart (a_ex b_ex : Extracted) : ℚ × List String :=
  if a_ex.colors ≠ [] ∧ b_ex.colors ≠ [] then
    let overlap := dedupFirst (a_ex.colors.filter (fun c => b_ex.colors.contains c))
    if overlap ≠ [] then
      (0.12, ["Color overlap: " ++ String.intercalate ", " (sortStrings overlap) ++ "."])
    else (-0.03, ["Colors don’t overlap."])
  else (0, [])

/-- Step 4 of compute_match: brand agreement (no reason on mismatch). -/
def brandPart (a_ex b_ex : Extracted) : ℚ × List String :=
  if truthyOpt a_ex.brand && truthyOpt b_ex.brand then
    if a_ex.brand = b_ex.brand then (0.12, ["Brand matches: " ++ a_ex.brand.getD "" ++ "."])
    else (-0.02, [])
  else (0, [])

/-- Step 5 of compute_match: location-token Jaccard. -/
def locSim (a b : Row) : ℚ :=
  jaccard (tokenize a.location_text).toFinset (tokenize b.location_text).toFinset

/-- Step 5 of compute_match: location similarity times 0.10, reason when
above 0.20. -/
def locPart (a b : Row) : ℚ × List String :=
  let ls := locSim a b
  (0.10 * ls,
   if ls > 0.20 then ["Location text seems close (Jaccard " ++ fmt2 ls ++ ")."] else [])

/-- The timestamp pair compute_match hands to time_plausibility: in
order (a, b) when the current report is a lost one, swapped otherwise. -/
def timeArgs (a b : Row) : Option String × Option String :=
  if a.kind = "lost" then (a.event_time, b.event_time) else (b.event_time, a.event_time)

/-- Step 7 of compute_match: identifier-hash intersection. -/
def idPart (a_ex b_ex : Extracted) : ℚ × List String :=
  let aI := a_ex.identifiers.toFinset
  let bI := b_ex.identifiers.toFinset
  if aI ≠ ∅ ∧ bI ≠ ∅ ∧ aI ∩ bI ≠ ∅ then
    (0.35, ["Hidden identifier signal matches (not displayed)."])
  else (0, [])

/-- The final clamp of compute_match. -/
def clampScore (s : ℚ) : ℚ := max (-0.5) (min 1.5 s)

/-- compute_match of app/matching.py: the weighted parts in source
order, the time-plausibility step in the middle (whose escaping
exception propagates, hence the Except), and the final clamp. -/
def compute_match (a b : Row) : Except Unit MatchResult :=
  let tp := textPart a b
  let ip := itemTypePart a.extracted b.extracted
  let cp := colorsPart a.extracted b.extracted
  let bp := brandPart a.extracted b.extracted
  let lp := locPart a b
  match time_plausibility (timeArgs a b).1 (timeArgs a b).2 with
  | .error e => .error e
  | .ok t =>
    let dp := idPart a.extracted b.extracted
    .ok { other_id := b.id,
          score := clampScore (tp.1 + ip.1 + cp.1 + bp.1 + lp.1 + t.1 + dp.1),
          reasons := tp.2 ++ ip.2 ++ cp.2 ++ bp.2 ++ lp.2 ++ t.2.toList ++ dp.2 }

/-- The fixed question catalog of choose_clarifying_question. -/
def QUESTION_CATALOG : List (String × String) :=
  [("brand", "What brand is it? (e.g., Samsung, Apple, Xiaomi)"),
   ("colors", "What color is it? (e.g., black/blue/red/transparent)"),
   ("item_type", "What is the item type? (phone/wallet/keys/bag/umbrella/etc.)"),
   ("unique_marks", "Any unique mark? (sticker / scratch / engraved text)")]

/-- The value of one catalog field on a feature record as the source
reads it: lists become tuples, falsy values (None, empty string, empty
list) become None. -/
def fieldVal (e : Extracted) : String → Option (String ⊕ List String)
  | "brand" => match e.brand with
    | some s => if s = "" then none else some (.inl s)
    | none => none
  | "colors" => if e.colors = [] then none else some (.inr e.colors)
  | "item_type" => match e.item_type with
    | some s => if s = "" then none else some (.inl s)
    | none => none
  | "unique_marks" => if e.unique_marks = [] then none else some (.inr e.unique_marks)
  | _ => none

/-- Number of distinct truthy values of a field across the candidates. -/
def diversity (tops : List Row) (key : String) : ℕ :=
  ((tops.filterMap (fun r => fieldVal r.extracted key)).toFinset).card

/-- One step of the best-field loop of choose_clarifying_question. -/
def qStep (tops : List Row) (acc : Option (String × String) × ℤ) (p : String × String) :
    Option (String × String) × ℤ :=
  if (diversity tops p.1 : ℤ) > acc.2 then (some p, (diversity tops p.1 : ℤ)) else acc

/-- The catalog filtered to the fields absent (falsy) on the current
record: the candidate questions of choose_clarifying_question. -/
def missingFields (cur : Extracted) : List (String × String) :=
  QUESTION_CATALOG.filter (fun p => (fieldVal cur p.1).isNone)

/-- choose_clarifying_question of app/matching.py. -/
def choose_clarifying_question (current : Row) (tops : List Row) :
    Option (String × String) :=
  let fields := missingFields current.extracted
  if fields.isEmpty || tops.isEmpty then none
  else
    let best := fields.foldl (qStep tops) (none, -1)
    match best.1 with
    | some p => if best.2 ≥ 2 then some p else none
    | none => none

/-- One step of the best-score loop of the duplicate scan in
app/main.py (best is None initially; a strictly greater score replaces
it, so the earliest maximal score wins). -/
def bestStep (acc : Option (ℚ × ℤ)) (m : MatchResult) : Option (ℚ × ℤ) :=
  match acc with
  | none => some (m.score, m.other_id)
  | some b => if m.score > b.1 then some (m.score, m.other_id) else some b

/-- The duplicate-detection scan of submit in app/main.py: nothing when
no same-kind report exists; otherwise score the newly submitted record
against the first 200 rows of the same-kind list (the list arrives most
recent first), track the best score and its id, and flag when the best
reaches 0.85.  The candidate id recorded by the loop equals the
other_id field of the match result.  An exception from compute_match
propagates (the loop runs the calls in order, so the mapM stops at the
first error exactly as the loop would). -/
def detectDuplicate (current : Row) (sameKind : List Row) : Except Unit (Option ℤ) :=
  if sameKind.isEmpty then .ok none
  else
    match (sameKind.take 200).mapM (fun c => compute_match current c) with
    | .error e => .error e
    | .ok ms =>
      match ms.foldl bestStep none with
      | some b => if b.1 ≥ 0.85 then .ok (some b.2) else .ok none
      | none => .ok none


/-! ## Claims -/

attribute [local semireducible] Rat.mul Rat.add Rat.sub Rat.inv Rat.ofScientific

/-- Rows exercising the naive-aware subtraction in time_plausibility:
the first event time carries a Z suffix (parsed as offset +00:00), the
second carries no offset. -/
def bugRowA : Row :=
  ⟨9, "lost", "x", "y", "z", some "2024-01-01T00:00:00Z", Extracted.empty⟩

/-- Companion row of bugRowA with a naive timestamp. -/
def bugRowB : Row :=
  ⟨10, "found", "x", "y", "z", some "2024-01-01T05:00:00", Extracted.empty⟩

/-- C3: compute_match is not total: at two well-formed rows whose event
times both parse but differ in offset-awareness, the subtraction inside
time_plausibility raises, so compute_match escapes with an exception
instead of returning a result. -/
theorem compute_match_raises_on_mixed_awareness :
    compute_match bugRowA bugRowB = Except.error ()
      ∧ parse_iso bugRowA.event_time ≠ none ∧ parse_iso bugRowB.event_time ≠ none := by
  refine ⟨by decide, by decide, by decide⟩

/-- The clamp keeps every rational inside the advertised interval. -/
theorem clampScore_bounds (s : ℚ) : -0.5 ≤ clampScore s ∧ clampScore s ≤ 1.5 := by
  unfold clampScore
  refine ⟨le_max_left _ _, max_le (by norm_num) (min_le_left _ _)⟩

/-- C4: whenever compute_match returns a result, its score lies in the
closed interval from -0.5 to 1.5 (the final hard clamp). -/
theorem compute_match_score_in_range (a b : Row) (r : MatchResult)
    (h : compute_match a b = Except.ok r) : -0.5 ≤ r.score ∧ r.score ≤ 1.5 := by
  unfold compute_match at h
  cases ht : time_plausibility (timeArgs a b).1 (timeArgs a b).2 with
  | error e => rw [ht] at h; exact absurd h (by simp)
  | ok t =>
    rw [ht] at h
    injection h with h
    subst h
    exact clampScore_bounds _

/-- A pair of trivial rows on which compute_match returns. -/
def plainRowA : Row := ⟨1, "lost", "", "", "", none, Extracted.empty⟩

/-- Companion row of plainRowA. -/
def plainRowB : Row := ⟨2, "found", "", "", "", none, Extracted.empty⟩

/-- Witness for C4: a concrete returned match whose clamped score obeys
both bounds. -/
theorem compute_match_score_in_range_witness :
    -0.5 ≤ (MatchResult.mk 2 0 []).score ∧ (MatchResult.mk 2 0 []).score ≤ 1.5 :=
  compute_match_score_in_range plainRowA plainRowB (MatchResult.mk 2 0 []) (by decide)

/-- The token set claim C1 prescribes for the first scoring step:
prefer the stored tokens of the side's feature record, fall back to
re-tokenizing and expanding the raw text when they are absent. -/
def specC1Tokens (r : Row) : Finset String :=
  if r.extracted.tokens ≠ [] then r.extracted.tokens.toFinset
  else (expand_tokens (tokenize (rowText r))).toFinset

/-- The first scoring contribution claim C1 prescribes. -/
def specC1First (a b : Row) : ℚ := 0.55 * jaccard (specC1Tokens a) (specC1Tokens b)

/-- Row with stored tokens disagreeing with its raw text. -/
def storedRowA : Row :=
  ⟨1, "lost", "wallet", "", "", none, { Extracted.empty with tokens := ["phone"] }⟩

/-- Companion row of storedRowA. -/
def storedRowB : Row :=
  ⟨2, "found", "keys", "", "", none, { Extracted.empty with tokens := ["phone"] }⟩

/-- C1 fails on the code: at two rows whose stored token lists agree
completely but whose raw texts share nothing, the claim prescribes a
first contribution of 0.55 (with a text-overlap reason), yet
compute_match re-tokenizes the raw text, contributes 0 and emits no
reason. -/
theorem compute_match_ignores_stored_tokens_cex :
    specC1First storedRowA storedRowB = 0.55
      ∧ (textPart storedRowA storedRowB).1 = 0
      ∧ compute_match storedRowA storedRowB = Except.ok (MatchResult.mk 2 0 [])
      ∧ specC1First storedRowA storedRowB ≠ (textPart storedRowA storedRowB).1 := by
  refine ⟨by decide, by decide, by decide, by decide⟩

/-- C1 amended: the first scoring contribution of compute_match is 0.55
times the Jaccard similarity of the token sets obtained by re-tokenizing
the two sides' concatenated title, description and location texts; the
stored tokens field of the feature records is never consulted (changing
it changes nothing) and no synonym expansion is applied at match time; a
text-overlap reason is appended exactly when that similarity exceeds
0.15. -/
theorem compute_match_text_step (a b : Row) (ta tb : List String) :
    compute_match { a with extracted := { a.extracted with tokens := ta } }
        { b with extracted := { b.extracted with tokens := tb } } = compute_match a b
    ∧ (textPart a b).1
        = 0.55 * jaccard (tokenize (rowText a)).toFinset (tokenize (rowText b)).toFinset
    ∧ ((textPart a b).2 ≠ [] ↔ textSim a b > 0.15) := by
  refine ⟨rfl, rfl, ?_⟩
  by_cases h : textSim a b > 0.15 <;> simp [textPart, h]

/-- The brand claim C2 prescribes: the first token, in token order, that
belongs to the brand vocabulary. -/
def specC2Brand (text : String) : Option String :=
  (expand_tokens (tokenize text)).find? (fun t => COMMON_BRANDS.contains t)

/-- C2 fails on the code: on the text samsung apple the first brand
token in token order is samsung, but extract sorts the distinct brand
tokens and returns the alphabetically first, apple. -/
theorem extract_brand_not_token_order_cex :
    (extract "samsung apple").brand = some "apple"
      ∧ specC2Brand "samsung apple" = some "samsung"
      ∧ (extract "samsung apple").brand ≠ specC2Brand "samsung apple" := by
  refine ⟨by decide, by decide, by decide⟩

/-- charListLe is reflexive. -/
theorem charListLe_refl : ∀ l : List Char, charListLe l l = true := by
  intro l
  induction l with
  | nil => rfl
  | cons x xs ih => simp [charListLe, lt_irrefl, ih]

/-- charListLe is transitive. -/
theorem charListLe_trans :
    ∀ a b c : List Char, charListLe a b = true → charListLe b c = true →
      charListLe a c = true := by
  intro a
  induction a with
  | nil => intro b c _ _; cases c <;> rfl
  | cons x xs ih =>
    intro b c hab hbc
    match b, c with
    | [], _ => simp [charListLe] at hab
    | y :: ys, [] => simp [charListLe] at hbc
    | y :: ys, z :: zs =>
      simp only [charListLe] at hab hbc ⊢
      rcases lt_trichotomy x y with hxy | hxy | hxy
      · rcases lt_trichotomy y z with hyz | hyz | hyz
        · simp [lt_trans hxy hyz]
        · subst hyz; simp [hxy]
        · rw [if_neg (asymm hyz), if_pos hyz] at hbc; exact absurd hbc (by simp)
      · subst hxy
        rw [if_neg (lt_irrefl x), if_neg (lt_irrefl x)] at hab
        rcases lt_trichotomy x z with hxz | hxz | hxz
        · simp [hxz]
        · subst hxz
          rw [if_neg (lt_irrefl x), if_neg (lt_irrefl x)] at hbc ⊢
          exact ih _ _ hab hbc
        · rw [if_neg (asymm hxz), if_pos hxz] at hbc; exact absurd hbc (by simp)
      · rw [if_neg (asymm hxy), if_pos hxy] at hab; exact absurd hab (by simp)

/-- charListLe is total. -/
theorem charListLe_total : ∀ a b : List Char, charListLe a b = true ∨ charListLe b a = true := by
  intro a
  induction a with
  | nil => intro b; left; cases b <;> rfl
  | cons x xs ih =>
    intro b
    match b with
    | [] => right; rfl
    | y :: ys =>
      rcases lt_trichotomy x y with h | h | h
      · left; simp [charListLe, h]
      · subst h
        rcases ih ys with h2 | h2
        · left; simp [charListLe, lt_irrefl, h2]
        · right; simp [charListLe, lt_irrefl, h2]
      · right; simp [charListLe, h]

/-- charListLe is antisymmetric. -/
theorem charListLe_antisymm :
    ∀ a b : List Char, charListLe a b = true → charListLe b a = true → a = b := by
  intro a
  induction a with
  | nil =>
    intro b _ hba
    match b with
    | [] => rfl
    | y :: ys => simp [charListLe] at hba
  | cons x xs ih =>
    intro b hab hba
    match b with
    | [] => simp [charListLe] at hab
    | y :: ys =>
      simp only [charListLe] at hab hba
      rcases lt_trichotomy x y with h | h | h
      · rw [if_neg (asymm h), if_pos h] at hba; exact absurd hba (by simp)
      · subst h
        rw [if_neg (lt_irrefl x), if_neg (lt_irrefl x)] at hab hba
        rw [ih ys hab hba]
      · rw [if_neg (asymm h), if_pos h] at hab; exact absurd hab (by simp)

/-- strLe is reflexive. -/
theorem strLe_refl (a : String) : strLe a a = true := charListLe_refl _

/-- strLe is transitive. -/
theorem strLe_trans {a b c : String} (h1 : strLe a b = true) (h2 : strLe b c = true) :
    strLe a c = true := charListLe_trans _ _ _ h1 h2

/-- strLe is total. -/
theorem strLe_total (a b : String) : strLe a b = true ∨ strLe b a = true :=
  charListLe_total _ _

/-- strLe is antisymmetric. -/
theorem strLe_antisymm {a b : String} (h1 : strLe a b = true) (h2 : strLe b a = true) :
    a = b := by
  have h := charListLe_antisymm _ _ h1 h2
  cases a; cases b; exact congrArg String.mk h

/-- Membership in an insertion. -/
theorem mem_insertSorted (x y : String) (l : List String) :
    y ∈ insertSorted x l ↔ y = x ∨ y ∈ l := by
  induction l with
  | nil => simp [insertSorted]
  | cons z zs ih =>
    by_cases h : strLe x z = true <;> simp [insertSorted, h, ih] <;> tauto

/-- Membership is preserved by sortStrings. -/
theorem mem_sortStrings (y : String) (l : List String) :
    y ∈ sortStrings l ↔ y ∈ l := by
  induction l with
  | nil => simp [sortStrings]
  | cons z zs ih => simp [sortStrings, mem_insertSorted] at *; tauto

/-- Insertion preserves sortedness. -/
theorem pairwise_insertSorted (x : String) (l : List String)
    (h : l.Pairwise (fun a b => strLe a b = true)) :
    (insertSorted x l).Pairwise (fun a b => strLe a b = true) := by
  induction l with
  | nil => simp [insertSorted]
  | cons z zs ih =>
    rcases List.pairwise_cons.mp h with ⟨hz, hzs⟩
    by_cases hle : strLe x z = true
    · simp only [insertSorted, hle, if_pos]
      refine List.pairwise_cons.mpr ⟨?_, h⟩
      intro b hb
      rcases List.mem_cons.mp hb with rfl | hb
      · exact hle
      · exact strLe_trans hle (hz b hb)
    · simp only [insertSorted, hle]
      rw [if_neg (by simpa using hle)]
      refine List.pairwise_cons.mpr ⟨?_, ih hzs⟩
      intro b hb
      rcases (mem_insertSorted x b zs).mp hb with rfl | hb
      · rcases strLe_total b z with h1 | h1
        · exact absurd h1 hle
        · exact h1
      · exact hz b hb

/-- sortStrings sorts. -/
theorem sortStrings_sorted (l : List String) :
    (sortStrings l).Pairwise (fun a b => strLe a b = true) := by
  induction l with
  | nil => simp [sortStrings]
  | cons z zs ih => exact pairwise_insertSorted z (sortStrings zs) ih

/-- The head of the sorted list is the least element. -/
theorem sortStrings_head_min (l : List String) (b : String) :
    (sortStrings l).head? = some b ↔ b ∈ l ∧ ∀ t ∈ l, strLe b t = true := by
  constructor
  · intro h
    match hs : sortStrings l with
    | [] => rw [hs] at h; simp at h
    | c :: cs =>
      rw [hs] at h
      injection h with h
      rw [← h]
      have hmem : c ∈ l := (mem_sortStrings c l).mp (by rw [hs]; exact List.mem_cons_self _ _)
      refine ⟨hmem, ?_⟩
      intro t ht
      have hts : t ∈ sortStrings l := (mem_sortStrings t l).mpr ht
      rw [hs] at hts
      rcases List.mem_cons.mp hts with rfl | hin
      · exact strLe_refl t
      · have hp := sortStrings_sorted l
        rw [hs] at hp
        exact (List.pairwise_cons.mp hp).1 t hin
  · rintro ⟨hmem, hmin⟩
    match hs : sortStrings l with
    | [] =>
      exact absurd ((mem_sortStrings b l).mpr hmem) (by rw [hs]; simp)
    | c :: cs =>
      have hc : c ∈ l := (mem_sortStrings c l).mp (by rw [hs]; exact List.mem_cons_self _ _)
      have hbc : strLe b c = true := hmin c hc
      have hcb : strLe c b = true := by
        have : b ∈ sortStrings l := (mem_sortStrings b l).mpr hmem
        rw [hs] at this
        rcases List.mem_cons.mp this with rfl | hin
        · exact strLe_refl b
        · have hp := sortStrings_sorted l
          rw [hs] at hp
          exact (List.pairwise_cons.mp hp).1 b hin
      rw [strLe_antisymm hcb hbc]
      rfl

/-- Membership through dedupFirstAux. -/
theorem mem_dedupFirstAux (x : String) :
    ∀ (seen l : List String), x ∈ dedupFirstAux seen l ↔ x ∈ l ∧ x ∉ seen := by
  intro seen l
  induction l generalizing seen with
  | nil => simp [dedupFirstAux]
  | cons t ts ih =>
    by_cases h : t ∈ seen
    · simp only [dedupFirstAux, if_pos h, ih]
      constructor
      · rintro ⟨h1, h2⟩; exact ⟨List.mem_cons_of_mem _ h1, h2⟩
      · rintro ⟨h1, h2⟩
        rcases List.mem_cons.mp h1 with rfl | h1
        · exact absurd h h2
        · exact ⟨h1, h2⟩
    · simp only [dedupFirstAux, if_neg h]
      constructor
      · intro hx
        rcases List.mem_cons.mp hx with rfl | hx
        · exact ⟨List.mem_cons_self _ _, h⟩
        · rcases (ih (t :: seen)).mp hx with ⟨h1, h2⟩
          refine ⟨List.mem_cons_of_mem _ h1, fun hc => h2 (List.mem_cons_of_mem _ hc)⟩
      · rintro ⟨h1, h2⟩
        rcases List.mem_cons.mp h1 with rfl | h1
        · exact List.mem_cons_self _ _
        · by_cases hxt : x = t
          · subst hxt; exact List.mem_cons_self _ _
          · exact List.mem_cons_of_mem _
              ((ih (t :: seen)).mpr ⟨h1, fun hc => by
                rcases List.mem_cons.mp hc with h' | h'
                · exact hxt h'
                · exact h2 h'⟩)

/-- Membership is preserved by dedupFirst. -/
theorem mem_dedupFirst (x : String) (l : List String) : x ∈ dedupFirst l ↔ x ∈ l := by
  simp [dedupFirst, mem_dedupFirstAux]

/-- C2 amended: extract returns as brand the lexicographically smallest
(by code point) token among the expanded tokens that belong to the
brand vocabulary, and none exactly when no token is in the vocabulary;
the position of the token in the text plays no role. -/
theorem extract_brand_is_alphabetical_min (text : String) (b : String) :
    (extract text).brand = some b ↔
      b ∈ expand_tokens (tokenize text) ∧ b ∈ COMMON_BRANDS
        ∧ ∀ t ∈ expand_tokens (tokenize text), t ∈ COMMON_BRANDS → strLe b t = true := by
  have hb : (extract text).brand
      = (sortStrings (dedupFirst ((expand_tokens (tokenize text)).filter
          (fun t => COMMON_BRANDS.contains t)))).head? := rfl
  rw [hb, sortStrings_head_min]
  constructor
  · rintro ⟨hmem, hmin⟩
    rw [mem_dedupFirst, List.mem_filter] at hmem
    refine ⟨hmem.1, by simpa using hmem.2, ?_⟩
    intro t ht hbr
    exact hmin t (by rw [mem_dedupFirst, List.mem_filter]; exact ⟨ht, by simpa using hbr⟩)
  · rintro ⟨h1, h2, h3⟩
    refine ⟨by rw [mem_dedupFirst, List.mem_filter]; exact ⟨h1, by simpa using h2⟩, ?_⟩
    intro t ht
    rw [mem_dedupFirst, List.mem_filter] at ht
    exact h3 t ht.1 (by simpa using ht.2)

/-- C5 fails on the code as universally stated: at two timestamp
strings that both parse (one aware through its Z suffix, one naive) the
claim prescribes the delta-based outcome 0.15 with a reason, but the
subtraction raises and time_plausibility returns nothing at all. -/
theorem time_plausibility_mixed_awareness_cex :
    time_plausibility (some "2024-03-05T10:00:00Z") (some "2024-03-05T12:00:00")
        = Except.error ()
      ∧ parse_iso (some "2024-03-05T10:00:00Z") ≠ none
      ∧ parse_iso (some "2024-03-05T12:00:00") ≠ none := by
  refine ⟨by decide, by decide, by decide⟩

/-- C5 amended: if either timestamp fails to parse, time_plausibility
returns 0 with no reason; if both parse and agree in offset-awareness,
then with delta = found minus lost in hours: delta below -1 gives -0.15
with the found-before-lost reason, delta in the closed band 0 to 72
gives 0.15 with a reason, delta in the half-open band 72 to 240 gives
0.05 with a reason, and every other delta (the band -1 to 0 included)
gives 0 with no reason; if exactly one side carries an offset the
subtraction raises and the exception escapes; compute_match passes the
pair (a.event_time, b.event_time) when a.kind is lost and the swapped
pair otherwise. -/
theorem time_plausibility_mapping :
    (∀ lt ft : Option String, (parse_iso lt = none ∨ parse_iso ft = none) →
        time_plausibility lt ft = Except.ok (0, none))
    ∧ (∀ lt ft : Option String, ∀ l f : PyDatetime,
        parse_iso lt = some l → parse_iso ft = some f →
        (l.offSeconds.isNone ≠ f.offSeconds.isNone →
          time_plausibility lt ft = Except.error ())
        ∧ (∀ d : ℤ, dtSub f l = Except.ok d →
            (((d : ℚ) / 1000000) / 3600 < -1 →
              time_plausibility lt ft
                = Except.ok (-0.15, some "Time seems inconsistent (found before lost)."))
            ∧ (0 ≤ ((d : ℚ) / 1000000) / 3600 → ((d : ℚ) / 1000000) / 3600 ≤ 72 →
              ∃ msg, time_plausibility lt ft = Except.ok (0.15, some msg))
            ∧ (72 < ((d : ℚ) / 1000000) / 3600 → ((d : ℚ) / 1000000) / 3600 ≤ 240 →
              ∃ msg, time_plausibility lt ft = Except.ok (0.05, some msg))
            ∧ (-1 ≤ ((d : ℚ) / 1000000) / 3600 → ((d : ℚ) / 1000000) / 3600 < 0 →
              time_plausibility lt ft = Except.ok (0, none))
            ∧ (240 < ((d : ℚ) / 1000000) / 3600 →
              time_plausibility lt ft = Except.ok (0, none))))
    ∧ (∀ a b : Row, (a.kind = "lost" → timeArgs a b = (a.event_time, b.event_time))
        ∧ (a.kind ≠ "lost" → timeArgs a b = (b.event_time, a.event_time))) := by
  refine ⟨?_, ?_, ?_⟩
  · intro lt ft h
    unfold time_plausibility
    rcases h with h | h
    · rw [h]
    · rw [h]; cases parse_iso lt <;> rfl
  · intro lt ft l f hl hf
    constructor
    · intro hmix
      unfold time_plausibility
      rw [hl, hf]
      cases hlo : l.offSeconds <;> cases hfo : f.offSeconds <;>
        rw [hlo, hfo] at hmix <;> simp at hmix <;> simp [dtSub, hlo, hfo]
    · intro d hd
      have hrun : time_plausibility lt ft =
          (if ((d : ℚ) / 1000000) / 3600 < -1 then
            Except.ok (-0.15, some "Time seems inconsistent (found before lost).")
          else if 0 ≤ ((d : ℚ) / 1000000) / 3600 ∧ ((d : ℚ) / 1000000) / 3600 ≤ 72 then
            Except.ok (0.15, some ("Time plausible: found ~" ++ fmt1 (((d : ℚ) / 1000000) / 3600)
              ++ "h after lost."))
          else if 72 < ((d : ℚ) / 1000000) / 3600 ∧ ((d : ℚ) / 1000000) / 3600 ≤ 240 then
            Except.ok (0.05, some ("Time plausible but wide gap (~"
              ++ fmt1 ((((d : ℚ) / 1000000) / 3600) / 24) ++ " days)."))
          else Except.ok (0, none)) := by
        unfold time_plausibility
        simp only [hl, hf, hd]
      refine ⟨?_, ?_, ?_, ?_, ?_⟩
      · intro h1; rw [hrun, if_pos h1]
      · intro h1 h2
        refine ⟨"Time plausible: found ~" ++ fmt1 (((d : ℚ) / 1000000) / 3600)
          ++ "h after lost.", ?_⟩
        rw [hrun, if_neg (by linarith), if_pos ⟨h1, h2⟩]
      · intro h1 h2
        refine ⟨"Time plausible but wide gap (~" ++ fmt1 ((((d : ℚ) / 1000000) / 3600) / 24)
          ++ " days).", ?_⟩
        rw [hrun, if_neg (by linarith), if_neg (by rintro ⟨_, h⟩; linarith),
          if_pos ⟨h1, h2⟩]
      · intro h1 h2
        rw [hrun, if_neg (by linarith), if_neg (by rintro ⟨h, _⟩; linarith),
          if_neg (by rintro ⟨h, _⟩; linarith)]
      · intro h1
        rw [hrun, if_neg (by linarith), if_neg (by rintro ⟨_, h⟩; linarith),
          if_neg (by rintro ⟨_, h⟩; linarith)]
  · intro a b
    constructor
    · intro h; simp [timeArgs, h]
    · intro h; simp [timeArgs, h]

/-- Witness for C5: at two concrete naive timestamps a day apart in the
wrong direction the mapping theorem yields the -0.15 outcome. -/
theorem time_plausibility_mapping_witness :
    time_plausibility (some "2024-01-02T00:00:00") (some "2024-01-01T00:00:00")
      = Except.ok (-0.15, some "Time seems inconsistent (found before lost).") := by
  have h := (time_plausibility_mapping.2.1 (some "2024-01-02T00:00:00")
    (some "2024-01-01T00:00:00") ⟨1704153600000000, none⟩ ⟨1704067200000000, none⟩
    (by decide) (by decide)).2 (-86400000000) (by decide)
  exact h.1 (by norm_num)

/-- keepItemTypeToken changes only the tokens field. -/
theorem keepItemTypeToken_fields (e : Extracted) :
    (keepItemTypeToken e).colors = e.colors ∧ (keepItemTypeToken e).item_type = e.item_type
      ∧ (keepItemTypeToken e).unique_marks = e.unique_marks
      ∧ (keepItemTypeToken e).brand = e.brand := by
  unfold keepItemTypeToken
  cases h : e.item_type with
  | none => simp [h]
  | some it =>
    by_cases hc : it ≠ "" ∧ it ∉ e.tokens
    · simp [hc, h]
    · simp [hc, h]

/-- keepItemTypeToken only grows the tokens. -/
theorem keepItemTypeToken_tokens_mono (e : Extracted) (t : String) (h : t ∈ e.tokens) :
    t ∈ (keepItemTypeToken e).tokens := by
  unfold keepItemTypeToken
  cases e.item_type with
  | none => exact h
  | some it =>
    by_cases hc : it ≠ "" ∧ it ∉ e.tokens
    · simp only [if_pos hc]
      exact List.mem_append_left _ h
    · simp only [if_neg hc]
      exact h

/-- One expansion step only grows the list. -/
theorem mem_expandStep (t : String) (exp : List String) (x : String) (h : t ∈ exp) :
    t ∈ expandStep exp x := by
  unfold expandStep
  cases hm : tokenCanonicalMap x with
  | none =>
    dsimp only
    split_ifs <;> simp [h]
  | some c =>
    dsimp only
    split_ifs <;> simp [h]

/-- The expansion fold only grows the list. -/
theorem mem_foldl_expandStep (t : String) :
    ∀ (l acc : List String), t ∈ acc → t ∈ l.foldl expandStep acc := by
  intro l
  induction l with
  | nil => intro acc h; exact h
  | cons x xs ih => intro acc h; exact ih (expandStep acc x) (mem_expandStep t acc x h)

/-- expand_tokens keeps every input token. -/
theorem mem_expand_tokens (t : String) (l : List String) (h : t ∈ l) :
    t ∈ expand_tokens l := by
  unfold expand_tokens
  rw [mem_dedupFirst]
  have hbase : t ∈ l.foldl expandStep l := mem_foldl_expandStep t l l h
  split_ifs with hc
  · exact List.mem_append_left _ hbase
  · exact hbase

/-- toList distributes over string append. -/
theorem toList_append (a b : String) : (a ++ b).toList = a.toList ++ b.toList :=
  String.data_append a b

/-- A member of a token list embeds as an infix of the space join. -/
theorem mem_joinSpace_substring (w : String) (l : List String) (h : w ∈ l) :
    w.toList <:+: (joinSpace l).toList := by
  induction l with
  | nil => cases h
  | cons x xs ih =>
    rcases List.mem_cons.mp h with rfl | h
    · cases xs with
      | nil => exact List.infix_refl _
      | cons y ys =>
        have he : joinSpace (w :: y :: ys) = w ++ " " ++ joinSpace (y :: ys) := rfl
        rw [he]
        refine List.IsPrefix.isInfix ?_
        show w.toList <+: (w ++ " " ++ joinSpace (y :: ys)).toList
        rw [toList_append, toList_append]
        exact (List.prefix_append _ _).trans (List.prefix_append _ _)
    · cases xs with
      | nil => cases h
      | cons y ys =>
        have he : joinSpace (x :: y :: ys) = x ++ " " ++ joinSpace (y :: ys) := rfl
        rw [he]
        refine (ih h).trans (List.IsSuffix.isInfix ?_)
        show (joinSpace (y :: ys)).toList <:+ (x ++ " " ++ joinSpace (y :: ys)).toList
        rw [toList_append]
        exact List.suffix_append _ _

/-- A prefix of a member is a substring of the space join. -/
theorem strContains_joinSpace (pat w : String) (l : List String) (h : w ∈ l)
    (hp : pat.toList <+: w.toList) : strContains pat (joinSpace l) = true := by
  unfold strContains
  rw [decide_eq_true_iff]
  exact (hp.isInfix).trans (mem_joinSpace_substring w l h)

/-- Everything clarificationMarks produces is one of its five canonical
marks; dent and lock are never produced. -/
theorem clarificationMarks_subset (l : List String) (m : String)
    (h : m ∈ clarificationMarks l) :
    m ∈ ["crack", "engraved", "scratch", "sticker", "tear"] := by
  unfold clarificationMarks at h
  rw [mem_sortStrings, mem_dedupFirst] at h
  simp only [List.mem_append] at h
  rcases h with ((((h | h) | h) | h) | h) <;> split_ifs at h <;> simp_all

/-- The colors field of extract in terms of its extractor. -/
theorem extract_colors_proj (text : String) :
    (extract text).colors
      = extract_colors text (expand_tokens (tokenize text)) (normalize_text text) := by
  unfold extract
  dsimp only

/-- The item_type field of extract in terms of its inference. -/
theorem extract_item_type_proj (text : String) :
    (extract text).item_type
      = infer_item_type text (expand_tokens (tokenize text)) (normalize_text text) := by
  unfold extract
  dsimp only

/-- C9 fails on the code: extract recognizes dented as the mark dent,
but the unique_marks branch of apply_clarification checks only five
substring groups and never produces dent, so the clarification answer
dented yields an empty unique_marks field. -/
theorem apply_clarification_drops_dent_cex :
    (apply_clarification Extracted.empty "unique_marks" "dented").unique_marks = []
      ∧ ("dent", ["dent", "dented"]) ∈ MARK_WORDS
      ∧ (extract "dented").unique_marks = ["dent"] := by
  refine ⟨by decide, by decide, by decide⟩

/-- C9 amended: apply_clarification re-runs the answer through extract's
own extractor for colors (replacing the field), and for item_type it
replaces the field with extract's inference result, falling back to the
answer's first expanded token; the unique_marks branch instead uses a
separate substring check over the space-joined expanded answer tokens
that can only produce sticker, scratch, engraved, crack and tear (never
dent or lock), and it does produce the canonical mark whenever an
answer token carries the corresponding keyword; the tokens field always
grows: every old token and every expanded answer token is kept. -/
theorem apply_clarification_behaviour (e : Extracted) (ans : String) :
    ((apply_clarification e "colors" ans).colors = (extract ans).colors)
    ∧ ((apply_clarification e "item_type" ans).item_type
        = ((extract ans).item_type).orElse (fun _ => (expand_tokens (tokenize ans)).head?))
    ∧ (∀ m ∈ (apply_clarification e "unique_marks" ans).unique_marks,
        m ∈ ["crack", "engraved", "scratch", "sticker", "tear"])
    ∧ (∀ t ∈ expand_tokens (tokenize ans), t ∈ ["sticker", "stickers"] →
        "sticker" ∈ (apply_clarification e "unique_marks" ans).unique_marks)
    ∧ (∀ t ∈ expand_tokens (tokenize ans), t ∈ ["scratch", "scratched", "scratches"] →
        "scratch" ∈ (apply_clarification e "unique_marks" ans).unique_marks)
    ∧ (∀ t ∈ expand_tokens (tokenize ans), t ∈ ["engraved", "etched"] →
        "engraved" ∈ (apply_clarification e "unique_marks" ans).unique_marks)
    ∧ (∀ t ∈ expand_tokens (tokenize ans), t ∈ ["crack", "cracked", "broken"] →
        "crack" ∈ (apply_clarification e "unique_marks" ans).unique_marks)
    ∧ (∀ t ∈ expand_tokens (tokenize ans), t ∈ ["tear", "torn"] →
        "tear" ∈ (apply_clarification e "unique_marks" ans).unique_marks)
    ∧ (∀ key : String, ∀ t : String, t ∈ e.tokens ∨ t ∈ expand_tokens (tokenize ans) →
        t ∈ (apply_clarification e key ans).tokens) := by
  have hcolorsDef : apply_clarification e "colors" ans = keepItemTypeToken { e with
      tokens := expand_tokens (e.tokens ++ expand_tokens (tokenize ans)),
      colors := extract_colors ans (expand_tokens (tokenize ans)) (normalize_text ans) } := rfl
  have hitemDef : apply_clarification e "item_type" ans = keepItemTypeToken { e with
      tokens := expand_tokens (e.tokens ++ expand_tokens (tokenize ans)),
      item_type := (infer_item_type ans (expand_tokens (tokenize ans))
        (normalize_text ans)).orElse (fun _ => (expand_tokens (tokenize ans)).head?) } := rfl
  have hmarksDef : apply_clarification e "unique_marks" ans = keepItemTypeToken { e with
      tokens := expand_tokens (e.tokens ++ expand_tokens (tokenize ans)),
      unique_marks := clarificationMarks (expand_tokens (tokenize ans)) } := rfl
  have hmarks : (apply_clarification e "unique_marks" ans).unique_marks
      = clarificationMarks (expand_tokens (tokenize ans)) := by
    rw [hmarksDef, (keepItemTypeToken_fields _).2.2.1]
  refine ⟨?_, ?_, ?_, ?_, ?_, ?_, ?_, ?_, ?_⟩
  · rw [hcolorsDef, (keepItemTypeToken_fields _).1, extract_colors_proj]
  · rw [hitemDef, (keepItemTypeToken_fields _).2.1, extract_item_type_proj]
  · intro m hm
    rw [hmarks] at hm
    exact clarificationMarks_subset _ m hm
  · intro t ht ht2
    rw [hmarks]
    have hc : strContains "sticker" (joinSpace (expand_tokens (tokenize ans))) = true := by
      refine strContains_joinSpace _ t _ ht ?_
      simp only [List.mem_cons, List.not_mem_nil, or_false] at ht2
      rcases ht2 with rfl | rfl <;> decide
    unfold clarificationMarks
    rw [mem_sortStrings, mem_dedupFirst]
    simp [hc]
  · intro t ht ht2
    rw [hmarks]
    have hc : strContains "scratch" (joinSpace (expand_tokens (tokenize ans))) = true := by
      refine strContains_joinSpace _ t _ ht ?_
      simp only [List.mem_cons, List.not_mem_nil, or_false] at ht2
      rcases ht2 with rfl | rfl | rfl <;> decide
    unfold clarificationMarks
    rw [mem_sortStrings, mem_dedupFirst]
    simp [hc]
  · intro t ht ht2
    rw [hmarks]
    simp only [List.mem_cons, List.not_mem_nil, or_false] at ht2
    have hc : strContains "engraved" (joinSpace (expand_tokens (tokenize ans))) = true
        ∨ strContains "etch" (joinSpace (expand_tokens (tokenize ans))) = true := by
      rcases ht2 with rfl | rfl
      · exact Or.inl (strContains_joinSpace _ _ _ ht (by decide))
      · exact Or.inr (strContains_joinSpace _ _ _ ht (by decide))
    unfold clarificationMarks
    rw [mem_sortStrings, mem_dedupFirst]
    rcases hc with hc | hc <;> simp [hc]
  · intro t ht ht2
    rw [hmarks]
    simp only [List.mem_cons, List.not_mem_nil, or_false] at ht2
    have hc : strContains "crack" (joinSpace (expand_tokens (tokenize ans))) = true
        ∨ strContains "broken" (joinSpace (expand_tokens (tokenize ans))) = true := by
      rcases ht2 with rfl | rfl | rfl
      · exact Or.inl (strContains_joinSpace _ _ _ ht (by decide))
      · exact Or.inl (strContains_joinSpace _ _ _ ht (by decide))
      · exact Or.inr (strContains_joinSpace _ _ _ ht (by decide))
    unfold clarificationMarks
    rw [mem_sortStrings, mem_dedupFirst]
    rcases hc with hc | hc <;> simp [hc]
  · intro t ht ht2
    rw [hmarks]
    simp only [List.mem_cons, List.not_mem_nil, or_false] at ht2
    have hc : strContains "tear" (joinSpace (expand_tokens (tokenize ans))) = true
        ∨ strContains "torn" (joinSpace (expand_tokens (tokenize ans))) = true := by
      rcases ht2 with rfl | rfl
      · exact Or.inl (strContains_joinSpace _ _ _ ht (by decide))
      · exact Or.inr (strContains_joinSpace _ _ _ ht (by decide))
    unfold clarificationMarks
    rw [mem_sortStrings, mem_dedupFirst]
    rcases hc with hc | hc <;> simp [hc]
  · intro key t ht
    have hmem : t ∈ expand_tokens (e.tokens ++ expand_tokens (tokenize ans)) := by
      apply mem_expand_tokens
      rcases ht with h | h
      · exact List.mem_append_left _ h
      · exact List.mem_append_right _ h
    unfold apply_clarification
    simp only []
    split_ifs <;> exact keepItemTypeToken_tokens_mono _ t hmem

/-- Witness for C9: a concrete clarification answer containing a
scratch keyword produces the canonical scratch mark. -/
theorem apply_clarification_behaviour_witness :
    "scratch" ∈ (apply_clarification Extracted.empty "unique_marks" "scratched").unique_marks :=
  (apply_clarification_behaviour Extracted.empty "scratched").2.2.2.2.1 "scratched"
    (by decide) (by decide)

/-- Invariant of the selection loop of infer_item_type over the already
processed categories: a zero best score means nothing was picked and
all processed scores are zero; a positive best score means the pick is
the preference-minimal among the processed categories attaining the
maximal (= best) score. -/
def ItemInv (tokens : List String) (norm : String) (processed : List String)
    (acc : Option String × ℕ) : Prop :=
  (acc.2 = 0 → acc.1 = none ∧ ∀ c ∈ processed, itemScore tokens norm c = 0)
  ∧ (0 < acc.2 → ∃ c, acc.1 = some c ∧ c ∈ processed
      ∧ itemScore tokens norm c = acc.2
      ∧ (∀ c' ∈ processed, itemScore tokens norm c' ≤ acc.2)
      ∧ (∀ c' ∈ processed, itemScore tokens norm c' = acc.2 → pref_rank c ≤ pref_rank c'))

/-- One selection step preserves the invariant. -/
theorem itemStep_inv (tokens : List String) (norm : String) (processed : List String)
    (acc : Option String × ℕ) (x : String) (h : ItemInv tokens norm processed acc) :
    ItemInv tokens norm (processed ++ [x]) (itemStep tokens norm acc x) := by
  obtain ⟨h0, hpos⟩ := h
  have hb : ∀ c' ∈ processed, itemScore tokens norm c' ≤ acc.2 := by
    rcases Nat.eq_zero_or_pos acc.2 with hz | hp
    · intro c' hc'; rw [(h0 hz).2 c' hc', hz]
    · obtain ⟨c0, _, _, _, hc4, _⟩ := hpos hp
      exact hc4
  unfold itemStep
  by_cases hgt : itemScore tokens norm x > acc.2
  · rw [if_pos hgt]
    constructor
    · intro h2
      simp only [] at h2
      omega
    · intro _
      refine ⟨x, rfl, List.mem_append_right _ (by simp), rfl, ?_, ?_⟩
      · intro c' hc'
        rcases List.mem_append.mp hc' with hc' | hc'
        · exact le_of_lt (lt_of_le_of_lt (hb c' hc') hgt)
        · simp only [List.mem_singleton] at hc'
          subst hc'
          exact le_refl _
      · intro c' hc' hce
        rcases List.mem_append.mp hc' with hc' | hc'
        · have := hb c' hc'
          omega
        · simp only [List.mem_singleton] at hc'
          subst hc'
          exact le_refl _
  · rw [if_neg hgt]
    by_cases htie : itemScore tokens norm x = acc.2 ∧ 0 < itemScore tokens norm x
        ∧ pref_rank x < prefRankOpt acc.1
    · rw [if_pos htie]
      obtain ⟨hsceq, hscpos, hrank⟩ := htie
      have hp : 0 < acc.2 := hsceq ▸ hscpos
      obtain ⟨c0, hc1, hc2, hc3, hc4, hc5⟩ := hpos hp
      constructor
      · intro h2
        simp only [] at h2
        omega
      · intro _
        refine ⟨x, rfl, List.mem_append_right _ (by simp), hsceq, ?_, ?_⟩
        · intro c' hc'
          rcases List.mem_append.mp hc' with hc' | hc'
          · exact hc4 c' hc'
          · simp only [List.mem_singleton] at hc'
            subst hc'
            exact le_of_eq hsceq
        · intro c' hc' hce
          rcases List.mem_append.mp hc' with hc' | hc'
          · have h6 := hc5 c' hc' hce
            have h7 : prefRankOpt acc.1 = pref_rank c0 := by rw [hc1]; rfl
            rw [h7] at hrank
            omega
          · simp only [List.mem_singleton] at hc'
            subst hc'
            exact le_refl _
    · rw [if_neg htie]
      constructor
      · intro h2
        obtain ⟨hn, hz⟩ := h0 h2
        refine ⟨hn, ?_⟩
        intro c' hc'
        rcases List.mem_append.mp hc' with hc' | hc'
        · exact hz c' hc'
        · simp only [List.mem_singleton] at hc'
          subst hc'
          omega
      · intro hp
        obtain ⟨c0, hc1, hc2, hc3, hc4, hc5⟩ := hpos hp
        refine ⟨c0, hc1, List.mem_append_left _ hc2, hc3, ?_, ?_⟩
        · intro c' hc'
          rcases List.mem_append.mp hc' with hc' | hc'
          · exact hc4 c' hc'
          · simp only [List.mem_singleton] at hc'
            subst hc'
            omega
        · intro c' hc' hce
          rcases List.mem_append.mp hc' with hc' | hc'
          · exact hc5 c' hc' hce
          · simp only [List.mem_singleton] at hc'
            subst hc'
            have hnr : ¬ pref_rank c' < prefRankOpt acc.1 := by
              intro hlt
              exact htie ⟨hce, by omega, hlt⟩
            have h7 : prefRankOpt acc.1 = pref_rank c0 := by rw [hc1]; rfl
            rw [h7] at hnr
            omega

/-- The whole selection fold preserves the invariant. -/
theorem itemFold_inv (tokens : List String) (norm : String) :
    ∀ (l processed : List String) (acc : Option String × ℕ),
      ItemInv tokens norm processed acc →
      ItemInv tokens norm (processed ++ l) (l.foldl (itemStep tokens norm) acc) := by
  intro l
  induction l with
  | nil => intro processed acc h; simpa using h
  | cons x xs ih =>
    intro processed acc h
    have h2 := ih (processed ++ [x]) (itemStep tokens norm acc x)
      (itemStep_inv tokens norm processed acc x h)
    simpa [List.append_assoc] using h2

/-- C7 counterexample: on the text "textbook wallet purse billfold",
scoring only multi-word phrases as the claim states makes wallet the
unique strict maximum (score 3 from three synonym tokens, every other
category strictly below 3), so the claim predicts wallet; yet
infer_item_type returns book, because the single-word phrase-table
entry "textbook" also earns the +3 phrase bonus in the code. -/
theorem infer_item_type_single_word_phrase_cex :
    infer_item_type "textbook wallet purse billfold"
        (expand_tokens (tokenize "textbook wallet purse billfold"))
        (normalize_text "textbook wallet purse billfold") = some "book"
    ∧ specItemScoreMultiWord (expand_tokens (tokenize "textbook wallet purse billfold"))
        (normalize_text "textbook wallet purse billfold") "wallet" = 3
    ∧ (∀ c ∈ ITEM_SYNONYMS.map (fun p => p.1), c ≠ "wallet" →
        specItemScoreMultiWord (expand_tokens (tokenize "textbook wallet purse billfold"))
          (normalize_text "textbook wallet purse billfold") c < 3)
    ∧ "book" ≠ "wallet" := by
  refine ⟨by decide, by decide, by decide, by decide⟩

/-- C7 (amended): infer_item_type scores every category as 3 per phrase
of the fixed phrase table occurring as a substring of the normalized
text (the table also holds single-word spellings such as textbook and
powerbank, which earn the same +3 as its multi-word entries) plus 1 per
distinct token that is a synonym of the category; it returns none
exactly when every category scores zero, and otherwise the category it
returns attains the maximal score and, among the categories attaining
it, has the least preference rank (documents first, clothing last in
the PREFERENCE order). -/
theorem infer_item_type_characterization (text : String) (tokens : List String) (norm : String) :
    (infer_item_type text tokens norm = none
      ↔ ∀ c ∈ ITEM_SYNONYMS.map (fun p => p.1), itemScore tokens norm c = 0)
    ∧ ∀ c, infer_item_type text tokens norm = some c →
        c ∈ ITEM_SYNONYMS.map (fun p => p.1) ∧ 0 < itemScore tokens norm c
        ∧ (∀ c' ∈ ITEM_SYNONYMS.map (fun p => p.1),
            itemScore tokens norm c' ≤ itemScore tokens norm c)
        ∧ (∀ c' ∈ ITEM_SYNONYMS.map (fun p => p.1),
            itemScore tokens norm c' = itemScore tokens norm c →
              pref_rank c ≤ pref_rank c') := by
  have hInv0 : ItemInv tokens norm [] (none, 0) := by
    constructor
    · intro _; exact ⟨rfl, by simp⟩
    · intro h; exact absurd h (by simp)
  have hInv := itemFold_inv tokens norm (ITEM_SYNONYMS.map (fun p => p.1)) [] (none, 0) hInv0
  rw [List.nil_append] at hInv
  have hrun : infer_item_type text tokens norm
      = (if ((ITEM_SYNONYMS.map (fun p => p.1)).foldl (itemStep tokens norm) (none, 0)).2 > 0
         then ((ITEM_SYNONYMS.map (fun p => p.1)).foldl (itemStep tokens norm) (none, 0)).1
         else none) := rfl
  obtain ⟨hzero, hposi⟩ := hInv
  rcases Nat.eq_zero_or_pos
      ((ITEM_SYNONYMS.map (fun p => p.1)).foldl (itemStep tokens norm) (none, 0)).2 with hz | hp
  · obtain ⟨hn, hall⟩ := hzero hz
    constructor
    · rw [hrun, if_neg (by omega)]
      simp only [true_iff]
      exact hall
    · intro c hc
      rw [hrun, if_neg (by omega)] at hc
      exact absurd hc (by simp)
  · obtain ⟨c0, hc1, hc2, hc3, hc4, hc5⟩ := hposi hp
    constructor
    · rw [hrun, if_pos (by omega), hc1]
      constructor
      · intro h; exact absurd h (by simp)
      · intro hall
        have := hall c0 hc2
        omega
    · intro c hc
      rw [hrun, if_pos (by omega), hc1] at hc
      injection hc with hc
      subst hc
      rw [hc3]
      exact ⟨hc2, by omega, hc4, hc5⟩

/-- Invariant of the best-field loop of choose_clarifying_question: the
initial accumulator persists only while nothing was processed, and
afterwards the pick is the earliest processed field attaining the
maximal diversity. -/
def QInv (tops : List Row) (processed : List (String × String))
    (acc : Option (String × String) × ℤ) : Prop :=
  (acc = (none, -1) ∧ processed = []) ∨
  (∃ p pre post, acc.1 = some p ∧ (diversity tops p.1 : ℤ) = acc.2
     ∧ processed = pre ++ p :: post
     ∧ (∀ q ∈ processed, (diversity tops q.1 : ℤ) ≤ acc.2)
     ∧ (∀ q ∈ pre, (diversity tops q.1 : ℤ) < acc.2))

/-- One best-field step preserves the invariant. -/
theorem qStep_inv (tops : List Row) (processed : List (String × String))
    (acc : Option (String × String) × ℤ) (x : String × String)
    (h : QInv tops processed acc) : QInv tops (processed ++ [x]) (qStep tops acc x) := by
  unfold qStep
  by_cases hgt : (diversity tops x.1 : ℤ) > acc.2
  · rw [if_pos hgt]
    rcases h with ⟨hacc, hproc⟩ | ⟨p, pre, post, h1, h2, h3, h4, h5⟩
    · subst hproc
      right
      refine ⟨x, [], [], rfl, rfl, by simp, ?_, by simp⟩
      intro q hq
      simp only [List.nil_append, List.mem_singleton] at hq
      subst hq
      exact le_refl _
    · right
      refine ⟨x, processed, [], rfl, rfl, by simp, ?_, ?_⟩
      · intro q hq
        rcases List.mem_append.mp hq with hq | hq
        · exact le_of_lt (lt_of_le_of_lt (h4 q hq) hgt)
        · simp only [List.mem_singleton] at hq
          subst hq
          exact le_refl _
      · intro q hq
        exact lt_of_le_of_lt (h4 q hq) hgt
  · rw [if_neg hgt]
    rcases h with ⟨hacc, hproc⟩ | ⟨p, pre, post, h1, h2, h3, h4, h5⟩
    · exfalso
      rw [hacc] at hgt
      simp only [] at hgt
      omega
    · right
      refine ⟨p, pre, post ++ [x], h1, h2, by rw [h3]; simp, ?_, h5⟩
      intro q hq
      rcases List.mem_append.mp hq with hq | hq
      · exact h4 q hq
      · simp only [List.mem_singleton] at hq
        subst hq
        omega

/-- The whole best-field fold preserves the invariant. -/
theorem qFold_inv (tops : List Row) :
    ∀ (l processed : List (String × String)) (acc : Option (String × String) × ℤ),
      QInv tops processed acc →
      QInv tops (processed ++ l) (l.foldl (qStep tops) acc) := by
  intro l
  induction l with
  | nil => intro processed acc h; simpa using h
  | cons x xs ih =>
    intro processed acc h
    have h2 := ih (processed ++ [x]) (qStep tops acc x) (qStep_inv tops processed acc x h)
    simpa [List.append_assoc] using h2

/-- C8: choose_clarifying_question filters the fixed catalog down to
the fields absent on the current record, picks the field with the most
distinct values across the candidates (lists compared whole), resolves
ties toward the earlier catalog position, and returns the pair exactly
when candidates exist, a field is missing, and the winner's diversity
is at least 2; otherwise none. -/
theorem choose_clarifying_question_characterization (current : Row) (tops : List Row) :
    (choose_clarifying_question current tops = none ↔
        tops = [] ∨ missingFields current.extracted = []
          ∨ ∀ p ∈ missingFields current.extracted, diversity tops p.1 < 2)
    ∧ ∀ k q, choose_clarifying_question current tops = some (k, q) →
        tops ≠ [] ∧ (k, q) ∈ missingFields current.extracted ∧ 2 ≤ diversity tops k
        ∧ (∀ p ∈ missingFields current.extracted, diversity tops p.1 ≤ diversity tops k)
        ∧ ∃ pre post, missingFields current.extracted = pre ++ (k, q) :: post
            ∧ ∀ p ∈ pre, diversity tops p.1 < diversity tops k := by
  by_cases hempty : (missingFields current.extracted).isEmpty || tops.isEmpty
  · have hrun : choose_clarifying_question current tops = none := by
      unfold choose_clarifying_question
      rw [if_pos hempty]
    rw [hrun]
    constructor
    · simp only [true_iff]
      rcases Bool.or_eq_true_iff.mp hempty with he | he
      · exact Or.inr (Or.inl (List.isEmpty_iff.mp he))
      · exact Or.inl (List.isEmpty_iff.mp he)
    · intro k q hc
      exact absurd hc (by simp)
  · have hfne : missingFields current.extracted ≠ [] := by
      intro hc
      apply hempty
      rw [Bool.or_eq_true_iff]
      exact Or.inl (List.isEmpty_iff.mpr hc)
    have htne : tops ≠ [] := by
      intro hc
      apply hempty
      rw [Bool.or_eq_true_iff]
      exact Or.inr (List.isEmpty_iff.mpr hc)
    have hInv := qFold_inv tops (missingFields current.extracted) [] (none, -1)
      (Or.inl ⟨rfl, rfl⟩)
    rw [List.nil_append] at hInv
    rcases hInv with ⟨_, hproc⟩ | ⟨p, pre, post, h1, h2, h3, h4, h5⟩
    · exact absurd hproc hfne
    · have hrun : choose_clarifying_question current tops
          = (if ((missingFields current.extracted).foldl (qStep tops) (none, -1)).2 ≥ 2
             then some p else none) := by
        unfold choose_clarifying_question
        rw [if_neg (by simpa using hempty)]
        simp only []
        rw [h1]
      by_cases h2le : ((missingFields current.extracted).foldl (qStep tops) (none, -1)).2 ≥ 2
      · rw [hrun, if_pos h2le]
        constructor
        · constructor
          · intro hc; exact absurd hc (by simp)
          · intro hall
            rcases hall with hall | hall | hall
            · exact absurd hall htne
            · exact absurd hall hfne
            · have hp := hall p (by rw [h3]; exact List.mem_append_right _ (List.mem_cons_self _ _))
              omega
        · intro k q hkq
          injection hkq with hkq
          subst hkq
          dsimp only at h2
          refine ⟨htne, by rw [h3]; exact List.mem_append_right _ (List.mem_cons_self _ _),
            by omega, ?_, pre, post, h3, ?_⟩
          · intro pf hpf
            have := h4 pf hpf
            omega
          · intro pf hpf
            have := h5 pf hpf
            omega
      · rw [hrun, if_neg h2le]
        constructor
        · simp only [true_iff]
          refine Or.inr (Or.inr ?_)
          intro pf hpf
          have := h4 pf hpf
          omega
        · intro k q hc
          exact absurd hc (by simp)

/-- Current row of the C8 witness: no brand, colors or marks. -/
def qwCur : Row := ⟨0, "lost", "wallet", "", "", none, extract "wallet"⟩

/-- Candidate rows of the C8 witness with two distinct brands. -/
def qwTops : List Row :=
  [⟨1, "found", "black apple iphone", "", "", none, extract "black apple iphone"⟩,
   ⟨2, "found", "blue samsung phone", "", "", none, extract "blue samsung phone"⟩,
   ⟨3, "found", "black xiaomi phone scratched", "", "", none,
     extract "black xiaomi phone scratched"⟩]

/-- Witness for C8: on a concrete record missing its brand and three
candidates with distinct brands the characterization applies and the
winning field is a missing catalog field with diversity at least 2. -/
theorem choose_clarifying_question_characterization_witness :
    ("brand", "What brand is it? (e.g., Samsung, Apple, Xiaomi)")
        ∈ missingFields qwCur.extracted
      ∧ 2 ≤ diversity qwTops "brand" :=
  let h := (choose_clarifying_question_characterization qwCur qwTops).2 "brand"
    "What brand is it? (e.g., Samsung, Apple, Xiaomi)" (by decide)
  ⟨h.2.1, h.2.2.1⟩

/-- Witness for C7: on the token list phone the characterization applies
and yields a positive maximal score for the category phone. -/
theorem infer_item_type_characterization_witness :
    0 < itemScore ["phone"] "phone" "phone"
      ∧ ∀ c' ∈ ITEM_SYNONYMS.map (fun p => p.1),
          itemScore ["phone"] "phone" c' ≤ itemScore ["phone"] "phone" "phone" :=
  let h := (infer_item_type_characterization "phone" ["phone"] "phone").2 "phone" (by decide)
  ⟨h.2.1, h.2.2.1⟩

/-- Invariant of the best-score loop of the duplicate scan: the
accumulator is empty only while nothing was processed, and afterwards
holds a processed result's score and id, the score maximal. -/
def BInv (processed : List MatchResult) (acc : Option (ℚ × ℤ)) : Prop :=
  (acc = none ∧ processed = []) ∨
  (∃ s i, acc = some (s, i) ∧ (∃ m ∈ processed, m.score = s ∧ m.other_id = i)
     ∧ ∀ m ∈ processed, m.score ≤ s)

/-- One best-score step preserves the invariant. -/
theorem bestStep_inv (processed : List MatchResult) (acc : Option (ℚ × ℤ))
    (m : MatchResult) (h : BInv processed acc) : BInv (processed ++ [m]) (bestStep acc m) := by
  unfold bestStep
  rcases h with ⟨hacc, hproc⟩ | ⟨s, i, hacc, ⟨m0, hm0, hms, hmi⟩, hbound⟩
  · subst hacc
    subst hproc
    right
    refine ⟨m.score, m.other_id, rfl, ⟨m, by simp, rfl, rfl⟩, ?_⟩
    intro m' hm'
    simp only [List.nil_append, List.mem_singleton] at hm'
    subst hm'
    exact le_refl _
  · subst hacc
    dsimp only
    by_cases hgt : m.score > s
    · rw [if_pos hgt]
      right
      refine ⟨m.score, m.other_id, rfl, ⟨m, List.mem_append_right _ (by simp), rfl, rfl⟩, ?_⟩
      intro m' hm'
      rcases List.mem_append.mp hm' with hm' | hm'
      · exact le_of_lt (lt_of_le_of_lt (hbound m' hm') hgt)
      · simp only [List.mem_singleton] at hm'
        subst hm'
        exact le_refl _
    · rw [if_neg hgt]
      right
      refine ⟨s, i, rfl, ⟨m0, List.mem_append_left _ hm0, hms, hmi⟩, ?_⟩
      intro m' hm'
      rcases List.mem_append.mp hm' with hm' | hm'
      · exact hbound m' hm'
      · simp only [List.mem_singleton] at hm'
        subst hm'
        exact le_of_not_lt hgt

/-- The whole best-score fold preserves the invariant. -/
theorem bestFold_inv :
    ∀ (l processed : List MatchResult) (acc : Option (ℚ × ℤ)),
      BInv processed acc → BInv (processed ++ l) (l.foldl bestStep acc) := by
  intro l
  induction l with
  | nil => intro processed acc h; simpa using h
  | cons x xs ih =>
    intro processed acc h
    have h2 := ih (processed ++ [x]) (bestStep acc x) (bestStep_inv processed acc x h)
    simpa [List.append_assoc] using h2

/-- C6: the duplicate scan consults at most the first 200 rows of the
same-kind list (most recent first), scores each with compute_match
using the new record as current, and flags the submission as a
duplicate of a maximally scoring report's id exactly when the maximal
score reaches 0.85; no flag when no same-kind report exists or none
reaches the threshold.  Stated under the hypothesis that every
compute_match call returns (see C3 for the exception case). -/
theorem detectDuplicate_characterization (current : Row) (sameKind : List Row)
    (ms : List MatchResult)
    (h : (sameKind.take 200).mapM (compute_match current) = Except.ok ms) :
    detectDuplicate current sameKind = detectDuplicate current (sameKind.take 200)
    ∧ (detectDuplicate current sameKind = Except.ok none ↔
        sameKind = [] ∨ ∀ m ∈ ms, m.score < 0.85)
    ∧ ∀ i, detectDuplicate current sameKind = Except.ok (some i) →
        ∃ m ∈ ms, m.other_id = i ∧ 0.85 ≤ m.score ∧ ∀ m' ∈ ms, m'.score ≤ m.score := by
  by_cases he : sameKind.isEmpty
  · have h0 : sameKind = [] := List.isEmpty_iff.mp he
    subst h0
    have hms : ms = [] := by
      have : (List.take 200 ([] : List Row)).mapM (compute_match current)
          = Except.ok ([] : List MatchResult) := rfl
      rw [this] at h
      injection h with h
      exact h.symm
    subst hms
    refine ⟨rfl, ?_, ?_⟩
    · constructor
      · intro _; exact Or.inl rfl
      · intro _; rfl
    · intro i hi
      rw [show detectDuplicate current [] = Except.ok none from rfl] at hi
      injection hi with hi
      exact absurd hi (by simp)
  · have hne : sameKind ≠ [] := by
      intro hc; rw [hc] at he; exact he rfl
    have hInv := bestFold_inv ms [] none (Or.inl ⟨rfl, rfl⟩)
    rw [List.nil_append] at hInv
    have hrun : detectDuplicate current sameKind
        = (match ms.foldl bestStep none with
           | some b => if b.1 ≥ 0.85 then Except.ok (some b.2) else Except.ok none
           | none => Except.ok none) := by
      unfold detectDuplicate
      rw [if_neg (by simpa using he), h]
    have htt : detectDuplicate current (sameKind.take 200) = detectDuplicate current sameKind := by
      unfold detectDuplicate
      have hne2 : ¬ (sameKind.take 200).isEmpty := by
        rw [List.isEmpty_iff]
        intro hc
        rcases List.take_eq_nil_iff.mp hc with hc | hc
        · exact absurd hc (by norm_num)
        · exact hne hc
      rw [if_neg (by simpa using he), if_neg (by simpa using hne2), List.take_take]
      norm_num
    refine ⟨htt.symm, ?_, ?_⟩
    · rcases hInv with ⟨hacc, hproc⟩ | ⟨s, i, hacc, ⟨m0, hm0, hms, hmi⟩, hbound⟩
      · rw [hrun, hacc]
        subst hproc
        constructor
        · intro _; exact Or.inr (by simp)
        · intro _; rfl
      · rw [hrun, hacc]
        by_cases hth : s ≥ 0.85
        · rw [show (match some (s, i) with
              | some b => if b.1 ≥ 0.85 then Except.ok (some b.2) else Except.ok none
              | none => (Except.ok none : Except Unit (Option ℤ))) = Except.ok (some i) from by
            dsimp only; rw [if_pos hth]]
          constructor
          · intro hc; injection hc with hc; exact absurd hc (by simp)
          · intro hall
            rcases hall with hall | hall
            · exact absurd hall hne
            · have := hall m0 hm0
              rw [hms] at this
              linarith
        · rw [show (match some (s, i) with
              | some b => if b.1 ≥ 0.85 then Except.ok (some b.2) else Except.ok none
              | none => (Except.ok none : Except Unit (Option ℤ))) = Except.ok none from by
            dsimp only; rw [if_neg hth]]
          constructor
          · intro _
            refine Or.inr ?_
            intro m hm
            have := hbound m hm
            have hlt : s < 0.85 := lt_of_not_ge hth
            linarith
          · intro _; rfl
    · intro j hj
      rcases hInv with ⟨hacc, hproc⟩ | ⟨s, i, hacc, ⟨m0, hm0, hms, hmi⟩, hbound⟩
      · rw [hrun, hacc] at hj
        injection hj with hj
        exact absurd hj (by simp)
      · rw [hrun, hacc] at hj
        dsimp only at hj
        by_cases hth : s ≥ 0.85
        · rw [if_pos hth] at hj
          injection hj with hj
          injection hj with hj
          subst hj
          refine ⟨m0, hm0, hmi, ?_, ?_⟩
          · rw [hms]; exact hth
          · intro m' hm'
            rw [hms]
            exact hbound m' hm'
        · rw [if_neg hth] at hj
          injection hj with hj
          exact absurd hj (by simp)

/-- Current row of the C6 witness (the newly submitted record). -/
def dupCur : Row :=
  ⟨-1, "lost", "black wallet", "black wallet", "gate", none,
    extract "black wallet
black wallet
gate"⟩

/-- Stored same-kind row of the C6 witness, identical in content. -/
def dupRow : Row :=
  ⟨6, "lost", "black wallet", "black wallet", "gate", none,
    extract "black wallet
black wallet
gate"⟩

/-- The match results of the C6 witness scan. -/
def dupMs : List MatchResult :=
  [⟨6, 97/100,
    ["Text overlap looks similar (Jaccard 1.00).", "Item type matches: wallet.",
     "Color overlap: black.", "Location text seems close (Jaccard 1.00)."]⟩]

/-- Witness for C6: an identical resubmission scores 0.97 and the scan
flags it as a duplicate of the stored report's id. -/
theorem detectDuplicate_characterization_witness :
    ∃ m ∈ dupMs, m.other_id = 6 ∧ (0.85 : ℚ) ≤ m.score ∧ ∀ m' ∈ dupMs, m'.score ≤ m.score :=
  (detectDuplicate_characterization dupCur [dupRow] dupMs (by decide)).2.2 6 (by decide)

/-- beBytes always returns its width. -/
theorem beBytes_length (k n : ℕ) : (beBytes k n).length = k := by
  induction k generalizing n with
  | zero => rfl
  | succ m ih => simp [beBytes, ih]

/-- The SHA-256 digest always has 32 bytes. -/
theorem sha256Bytes_length (msg : List ℕ) : (sha256Bytes msg).length = 32 := by
  unfold sha256Bytes
  simp [beBytes_length]

/-- Any lookup in the hex table lands in the hex table. -/
theorem hexGetD_mem (n : ℕ) : HEX_CHARS.getD n '0' ∈ HEX_CHARS := by
  by_cases h : n < HEX_CHARS.length
  · rw [List.getD_eq_getElem _ _ h]
    exact List.getElem_mem _
  · rw [List.getD_eq_default _ _ (le_of_not_lt h)]
    decide

/-- Both characters of a byte's hex rendering are hex characters. -/
theorem byteHex_mem (b : ℕ) (c : Char) (h : c ∈ byteHex b) : c ∈ HEX_CHARS := by
  unfold byteHex at h
  rcases List.mem_cons.mp h with rfl | h
  · exact hexGetD_mem _
  · rcases List.mem_cons.mp h with rfl | h
    · exact hexGetD_mem _
    · cases h

/-- A hash digest has exactly 16 characters, all hex. -/
theorem hash_id_shape (v : String) :
    (hash_id v).length = 16 ∧ ∀ c ∈ (hash_id v).toList, c ∈ HEX_CHARS := by
  have hlen : ((sha256Bytes (utf8Bytes ("LFv1:" ++ v))).flatMap byteHex).length = 64 := by
    rw [List.length_flatMap]
    have hsum : ∀ l : List ℕ, (List.map (List.length ∘ byteHex) l).sum = 2 * l.length := by
      intro l
      induction l with
      | nil => rfl
      | cons x xs ih => simp [Function.comp, byteHex, ih]; ring
    rw [hsum, sha256Bytes_length]
  constructor
  · show (String.mk _).length = 16
    simp only [String.length]
    rw [List.length_take, hlen]
    norm_num
  · intro c hc
    have hc2 : c ∈ (sha256Bytes (utf8Bytes ("LFv1:" ++ v))).flatMap byteHex :=
      List.mem_of_mem_take hc
    rcases List.mem_flatMap.mp hc2 with ⟨b, _, hb⟩
    exact byteHex_mem b c hb

/-- Insertion with a fresh element preserves distinctness. -/
theorem insertSorted_nodup (x : String) (l : List String) (hx : x ∉ l) (h : l.Nodup) :
    (insertSorted x l).Nodup := by
  induction l with
  | nil => simp [insertSorted]
  | cons y ys ih =>
    rcases List.nodup_cons.mp h with ⟨hy, hys⟩
    by_cases hle : strLe x y = true
    · simp only [insertSorted, if_pos hle]
      exact List.nodup_cons.mpr ⟨hx, h⟩
    · simp only [insertSorted, hle]
      rw [if_neg (by simpa using hle)]
      refine List.nodup_cons.mpr ⟨?_, ih (fun hc => hx (List.mem_cons_of_mem _ hc)) hys⟩
      intro hc
      rcases (mem_insertSorted x y ys).mp hc with rfl | hc
      · exact hx (List.mem_cons_self _ _)
      · exact hy hc

/-- Sorting preserves distinctness. -/
theorem sortStrings_nodup (l : List String) (h : l.Nodup) : (sortStrings l).Nodup := by
  induction l with
  | nil => simp [sortStrings]
  | cons x xs ih =>
    rcases List.nodup_cons.mp h with ⟨hx, hxs⟩
    exact insertSorted_nodup x (sortStrings xs)
      (fun hc => hx ((mem_sortStrings x xs).mp hc)) (ih hxs)

/-- dedupFirst produces a list without duplicates. -/
theorem dedupFirstAux_nodup : ∀ (seen l : List String), (dedupFirstAux seen l).Nodup := by
  intro seen l
  induction l generalizing seen with
  | nil => simp [dedupFirstAux]
  | cons t ts ih =>
    by_cases h : t ∈ seen
    · simpa [dedupFirstAux, if_pos h] using ih seen
    · simp only [dedupFirstAux, if_neg h]
      refine List.nodup_cons.mpr ⟨?_, ih (t :: seen)⟩
      intro hc
      exact ((mem_dedupFirstAux t (t :: seen) ts).mp hc).2 (List.mem_cons_self _ _)

/-- dedupFirst produces a list without duplicates. -/
theorem dedupFirst_nodup (l : List String) : (dedupFirst l).Nodup := dedupFirstAux_nodup [] l

/-- An anchored email match always contains the at sign. -/
theorem matchEmailAt_has_at (cs : List Char) (pr : List Char × List Char)
    (h : matchEmailAt cs = some pr) : '@' ∈ pr.1 := by
  unfold matchEmailAt at h
  by_cases h1 : (takeRun isLocalChar cs).1.isEmpty
  · rw [if_pos h1] at h
    exact absurd h (by simp)
  · rw [if_neg h1] at h
    split at h
    · dsimp only at h
      split at h
      · injection h with h
        subst h
        exact List.mem_append_right _ (List.mem_cons_self _ _)
      · exact absurd h (by simp)
    · exact absurd h (by simp)

/-- Every email the scanner returns contains the at sign. -/
theorem emailScanAux_has_at :
    ∀ (fuel : ℕ) (pw : Bool) (cs : List Char) (m : String),
      m ∈ emailScanAux fuel pw cs → '@' ∈ m.toList := by
  intro fuel
  induction fuel with
  | zero => intro pw cs m h; simp [emailScanAux] at h
  | succ n ih =>
    intro pw cs m h
    cases cs with
    | nil => simp [emailScanAux] at h
    | cons c rest =>
      simp only [emailScanAux] at h
      split at h
      · cases hm : matchEmailAt (c :: rest) with
        | some pr =>
          rw [hm] at h
          rcases List.mem_cons.mp h with rfl | h
          · exact matchEmailAt_has_at _ _ hm
          · exact ih _ _ _ h
        | none =>
          rw [hm] at h
          exact ih _ _ _ h
      · exact ih _ _ _ h

/-- Every email match of a text contains the at sign. -/
theorem emailMatches_has_at (text : String) (e : String) (h : e ∈ emailMatches text) :
    '@' ∈ e.toList := emailScanAux_has_at _ _ _ e h

/-- The normalized text of the C10 counterexample. -/
def c10Text : String := "1000000100 1281164063"

/-- C10 fails on the code: the identifier list of the text made of the
two ten-digit runs 1000000100 and 1281164063 has as its first element
the digest of num:1000000100, and that digest contains the raw matched
digit substring 1281164063. -/
theorem extract_identifiers_contains_raw_digits_cex :
    extract_identifiers c10Text = ["49e1281164063372", "5a3fb79589c08930"]
      ∧ digitMatches (normalize_text c10Text) = ["1000000100", "1281164063"]
      ∧ ("1281164063").toList <:+: ("49e1281164063372").toList := by
  refine ⟨by decide, by decide, by decide⟩

/-- C10 amended: every element of extract_identifiers is a 16-character
string over the lowercase hex alphabet, the result is sorted and
deduplicated, and no element equals or contains a raw matched email
(emails contain the at sign, which is not a hex character); a raw
matched phone or digit substring, however, is itself a hex-alphabet
string and can occur inside a digest, so the no-containment guarantee
does not extend to it. -/
theorem extract_identifiers_digests (text : String) :
    (∀ h ∈ extract_identifiers text, h.length = 16 ∧ ∀ c ∈ h.toList, c ∈ HEX_CHARS)
    ∧ (extract_identifiers text).Pairwise (fun a b => strLe a b = true)
    ∧ (extract_identifiers text).Nodup
    ∧ ∀ e ∈ emailMatches text, ∀ h ∈ extract_identifiers text,
        ¬ (e.toList <:+: h.toList) ∧ h ≠ e := by
  have hform : ∀ h ∈ extract_identifiers text, ∃ v, h = hash_id v := by
    intro h hh
    unfold extract_identifiers at hh
    rw [mem_sortStrings, mem_dedupFirst] at hh
    rcases List.mem_map.mp hh with ⟨v, _, hv⟩
    exact ⟨v, hv.symm⟩
  refine ⟨?_, ?_, ?_, ?_⟩
  · intro h hh
    rcases hform h hh with ⟨v, rfl⟩
    exact hash_id_shape v
  · exact sortStrings_sorted _
  · unfold extract_identifiers
    exact sortStrings_nodup _ (dedupFirst_nodup _)
  · intro e he h hh
    have hat : '@' ∈ e.toList := emailMatches_has_at text e he
    have hhex : ∀ c ∈ h.toList, c ∈ HEX_CHARS := by
      rcases hform h hh with ⟨v, rfl⟩
      exact (hash_id_shape v).2
    constructor
    · intro hinf
      have : '@' ∈ h.toList := hinf.subset hat
      have := hhex _ this
      simp [HEX_CHARS] at this
    · intro hc
      subst hc
      have := hhex _ hat
      simp [HEX_CHARS] at this

/-- Witness for C10: at the concrete text a at b dot cd the single
identifier digest neither contains nor equals the raw matched email. -/
theorem extract_identifiers_digests_witness :
    ¬ (("a@b.cd").toList <:+: ("d38f1c9bfa9345b1").toList)
      ∧ ("d38f1c9bfa9345b1" : String) ≠ "a@b.cd" :=
  (extract_identifiers_digests "a@b.cd").2.2.2 "a@b.cd" (by decide)
    "d38f1c9bfa9345b1" (by decide)
